import Mathlib

/-!
Verification of the secretshare program (Shamir secret sharing over GF(2^8)).

The repository's `main.rs` is embedded shallowly below: byte values are `Nat`s
kept below 256, byte vectors are `List Nat`, fallible code returns `Option` or
`Except`.  The `Gf256` field type lives in the repository's `gf256` module,
whose file is not part of the sources at hand; its arithmetic is modelled from
the spec (GF(2^8) with reduction polynomial 0x11B, addition and subtraction
both XOR, multiplication modulo the reduction polynomial, inverse of nonzero
elements).  The external `crc24` and base64 collaborators are likewise
modelled from the spec's exact descriptions.
-/

set_option maxRecDepth 100000

/-- Modelled from the spec: multiplication by the monomial x in GF(2^8),
i.e. a left shift reduced by the polynomial 0x11B when the result leaves
8 bits.  This is the primitive from which `gfMul` (polynomial
multiplication modulo 0x11B) is built. -/
def xtime (a : Nat) : Nat :=
  let d := 2 * a
  if 256 ≤ d then d ^^^ 0x11B else d

/-- Modelled from the spec: carry-less (GF(2)) multiply-and-reduce, processing
`fuel` low bits of `b`; `gfMul` instantiates `fuel := 8`. -/
def gfMulAux : Nat → Nat → Nat → Nat
  | 0, _, _ => 0
  | fuel + 1, a, b =>
    let rest := gfMulAux fuel (xtime a) (b / 2)
    if b % 2 = 1 then a ^^^ rest else rest

/-- Modelled from the spec: "multiplication is polynomial multiplication
modulo the reduction polynomial" x^8 + x^4 + x^3 + x + 1 (value 0x11B). -/
def gfMul (a b : Nat) : Nat := gfMulAux 8 a b

/-- Squaring in GF(2^8). -/
def gfSq (x : Nat) : Nat := gfMul x x

/-- Modelled from the spec: the multiplicative inverse of a nonzero field
element (`inverse(a)` of the `Gf256` contract); computed as a^254 =
a^2 * a^4 * ... * a^128, the inverse in GF(2^8)^× (certified below by
`gfMul_gfInv`). `gfInv 0 = 0`. -/
def gfInv (a : Nat) : Nat :=
  let a2 := gfSq a
  let a4 := gfSq a2
  let a8 := gfSq a4
  let a16 := gfSq a8
  let a32 := gfSq a16
  let a64 := gfSq a32
  let a128 := gfSq a64
  gfMul a2 (gfMul a4 (gfMul a8 (gfMul a16 (gfMul a32 (gfMul a64 a128)))))

/-- Modelled from the spec: "Division is a * inverse(b)". -/
def gfDiv (a b : Nat) : Nat := gfMul a (gfInv b)

theorem xtime_lt : ∀ a < 256, xtime a < 256 := by decide

theorem xtime_zero : xtime 0 = 0 := by decide

/-- XOR of two bytes is a byte. -/
theorem xor_lt_256 {a b : Nat} (ha : a < 256) (hb : b < 256) : a ^^^ b < 256 := by
  have h := Nat.xor_lt_two_pow (n := 8) (show a < 2 ^ 8 by omega) (show b < 2 ^ 8 by omega)
  omega

theorem xor_shuffle (x u v : Nat) : (x ^^^ u) ^^^ (x ^^^ v) = u ^^^ v := by
  rw [Nat.xor_assoc, ← Nat.xor_assoc u x v, Nat.xor_comm u x, Nat.xor_assoc x u v,
    Nat.xor_cancel_left]

theorem xor_shuffle_right (u v x : Nat) : (u ^^^ x) ^^^ (v ^^^ x) = u ^^^ v := by
  rw [Nat.xor_comm u x, Nat.xor_comm v x, xor_shuffle]

/-- Adding a number below 2^n to 2^n is XOR: the bit patterns are disjoint. -/
theorem two_pow_xor_eq_add : ∀ n r : Nat, r < 2 ^ n → 2 ^ n ^^^ r = 2 ^ n + r := by
  intro n
  induction n with
  | zero =>
    intro r hr
    interval_cases r
    decide
  | succ n ih =>
    intro r hr
    have hpow : 2 ^ (n + 1) = 2 ^ n * 2 := by rw [Nat.pow_succ]
    have hdiv : (2 ^ (n + 1) ^^^ r) / 2 = 2 ^ n + r / 2 := by
      rw [Nat.xor_div_two]
      have h1 : 2 ^ (n + 1) / 2 = 2 ^ n := by omega
      rw [h1, ih (r / 2) (by omega)]
    have hmod : (2 ^ (n + 1) ^^^ r) % 2 = (2 ^ (n + 1) + r) % 2 := Nat.xor_mod_two_eq
    omega

theorem xor_256_split {r : Nat} (hr : r < 256) : 256 ^^^ r = 256 + r :=
  two_pow_xor_eq_add 8 r (by omega)

/-- XOR of a 9-bit value past 256 with one below 256 lands past 256. -/
theorem xor_256_hl {a b : Nat} (ha : 256 ≤ a) (ha' : a < 512) (hb : b < 256) :
    a ^^^ b = 256 + ((a - 256) ^^^ b) := by
  have h1 : a = 256 ^^^ (a - 256) := by rw [xor_256_split (show a - 256 < 256 by omega)]; omega
  calc a ^^^ b = (256 ^^^ (a - 256)) ^^^ b := by rw [← h1]
    _ = 256 ^^^ ((a - 256) ^^^ b) := Nat.xor_assoc _ _ _
    _ = 256 + ((a - 256) ^^^ b) := xor_256_split (xor_lt_256 (by omega) hb)

/-- XOR of two 9-bit values both past 256 lands below 256. -/
theorem xor_256_hh {a b : Nat} (ha : 256 ≤ a) (ha' : a < 512) (hb : 256 ≤ b)
    (hb' : b < 512) : a ^^^ b = (a - 256) ^^^ (b - 256) := by
  have h1 : a = 256 ^^^ (a - 256) := by rw [xor_256_split (show a - 256 < 256 by omega)]; omega
  have h2 : b = 256 ^^^ (b - 256) := by rw [xor_256_split (show b - 256 < 256 by omega)]; omega
  calc a ^^^ b = (256 ^^^ (a - 256)) ^^^ (256 ^^^ (b - 256)) := by rw [← h1, ← h2]
    _ = (a - 256) ^^^ (b - 256) := xor_shuffle _ _ _

/-- `xtime` is GF(2)-linear on bytes. -/
theorem xtime_xor (a b : Nat) (ha : a < 256) (hb : b < 256) :
    xtime (a ^^^ b) = xtime a ^^^ xtime b := by
  have hdist : 2 * (a ^^^ b) = 2 * a ^^^ 2 * b := by
    have hdiv : (2 * a ^^^ 2 * b) / 2 = a ^^^ b := by
      rw [Nat.xor_div_two]
      have h1 : 2 * a / 2 = a := by omega
      have h2 : 2 * b / 2 = b := by omega
      rw [h1, h2]
    have hmod : (2 * a ^^^ 2 * b) % 2 = (2 * a + 2 * b) % 2 := Nat.xor_mod_two_eq
    omega
  simp only [xtime, hdist]
  by_cases hA : 256 ≤ 2 * a <;> by_cases hB : 256 ≤ 2 * b
  · have hc : ¬ 256 ≤ 2 * a ^^^ 2 * b := by
      rw [xor_256_hh hA (by omega) hB (by omega)]
      have := xor_lt_256 (show 2 * a - 256 < 256 by omega) (show 2 * b - 256 < 256 by omega)
      omega
    rw [if_neg hc, if_pos hA, if_pos hB, xor_shuffle_right]
  · have hc : 256 ≤ 2 * a ^^^ 2 * b := by
      rw [xor_256_hl hA (by omega) (by omega)]; omega
    rw [if_pos hc, if_pos hA, if_neg hB, Nat.xor_assoc, Nat.xor_comm (2 * b) 0x11B,
      ← Nat.xor_assoc]
  · have hc : 256 ≤ 2 * a ^^^ 2 * b := by
      rw [Nat.xor_comm, xor_256_hl hB (by omega) (by omega)]; omega
    rw [if_pos hc, if_neg hA, if_pos hB, Nat.xor_assoc]
  · have hc : ¬ 256 ≤ 2 * a ^^^ 2 * b := by
      have := xor_lt_256 (show 2 * a < 256 by omega) (show 2 * b < 256 by omega)
      omega
    rw [if_neg hc, if_neg hA, if_neg hB]

theorem gfMulAux_lt : ∀ fuel a b, a < 256 → gfMulAux fuel a b < 256 := by
  intro fuel
  induction fuel with
  | zero => intro a b _; simp [gfMulAux]
  | succ fuel ih =>
    intro a b ha
    simp only [gfMulAux]
    have hrest := ih (xtime a) (b / 2) (xtime_lt a ha)
    by_cases hb : b % 2 = 1
    · rw [if_pos hb]; exact xor_lt_256 ha hrest
    · rw [if_neg hb]; exact hrest

theorem gfMul_lt {a : Nat} (b : Nat) (ha : a < 256) : gfMul a b < 256 :=
  gfMulAux_lt 8 a b ha

theorem gfMulAux_zero_right : ∀ fuel a, gfMulAux fuel a 0 = 0 := by
  intro fuel
  induction fuel with
  | zero => intro a; simp [gfMulAux]
  | succ fuel ih => intro a; simp [gfMulAux, ih]

theorem gfMulAux_zero_left : ∀ fuel b, gfMulAux fuel 0 b = 0 := by
  intro fuel
  induction fuel with
  | zero => intro b; simp [gfMulAux]
  | succ fuel ih =>
    intro b
    simp only [gfMulAux, xtime_zero, ih]
    by_cases hb : b % 2 = 1 <;> simp [hb]

theorem gfMul_zero (a : Nat) : gfMul a 0 = 0 := gfMulAux_zero_right 8 a

theorem zero_gfMul (b : Nat) : gfMul 0 b = 0 := gfMulAux_zero_left 8 b

/-- `gfMulAux` is GF(2)-linear in its second argument. -/
theorem gfMulAux_xor_right :
    ∀ fuel a b c, gfMulAux fuel a (b ^^^ c) = gfMulAux fuel a b ^^^ gfMulAux fuel a c := by
  intro fuel
  induction fuel with
  | zero => intro a b c; simp [gfMulAux]
  | succ fuel ih =>
    intro a b c
    simp only [gfMulAux, Nat.xor_div_two, ih (xtime a) (b / 2) (c / 2)]
    have hmod : (b ^^^ c) % 2 = (b + c) % 2 := Nat.xor_mod_two_eq
    by_cases hb : b % 2 = 1 <;> by_cases hc : c % 2 = 1
    · rw [if_pos hb, if_pos hc, if_neg (by omega), xor_shuffle]
    · rw [if_pos hb, if_neg hc, if_pos (by omega), ← Nat.xor_assoc]
    · rw [if_neg hb, if_pos hc, if_pos (by omega)]
      generalize gfMulAux fuel (xtime a) (b / 2) = u
      generalize gfMulAux fuel (xtime a) (c / 2) = v
      rw [← Nat.xor_assoc, Nat.xor_comm a u, Nat.xor_assoc]
    · rw [if_neg hb, if_neg hc, if_neg (by omega)]

/-- `gfMulAux` is GF(2)-linear in its first (byte) argument. -/
theorem gfMulAux_xor_left :
    ∀ fuel a a' b, a < 256 → a' < 256 →
      gfMulAux fuel (a ^^^ a') b = gfMulAux fuel a b ^^^ gfMulAux fuel a' b := by
  intro fuel
  induction fuel with
  | zero => intro a a' b _ _; simp [gfMulAux]
  | succ fuel ih =>
    intro a a' b ha ha'
    simp only [gfMulAux, xtime_xor a a' ha ha',
      ih (xtime a) (xtime a') (b / 2) (xtime_lt a ha) (xtime_lt a' ha')]
    by_cases hb : b % 2 = 1
    · rw [if_pos hb, if_pos hb, if_pos hb]
      generalize gfMulAux fuel (xtime a) (b / 2) = u
      generalize gfMulAux fuel (xtime a') (b / 2) = v
      calc (a ^^^ a') ^^^ (u ^^^ v) = a ^^^ (a' ^^^ (u ^^^ v)) := Nat.xor_assoc _ _ _
        _ = a ^^^ ((a' ^^^ u) ^^^ v) := by rw [Nat.xor_assoc]
        _ = a ^^^ ((u ^^^ a') ^^^ v) := by rw [Nat.xor_comm a' u]
        _ = a ^^^ (u ^^^ (a' ^^^ v)) := by rw [Nat.xor_assoc]
        _ = (a ^^^ u) ^^^ (a' ^^^ v) := (Nat.xor_assoc _ _ _).symm
    · rw [if_neg hb, if_neg hb, if_neg hb]

theorem gfMul_xor_right (a b c : Nat) :
    gfMul a (b ^^^ c) = gfMul a b ^^^ gfMul a c :=
  gfMulAux_xor_right 8 a b c

theorem gfMul_xor_left (a a' b : Nat) (ha : a < 256) (ha' : a' < 256) :
    gfMul (a ^^^ a') b = gfMul a b ^^^ gfMul a' b :=
  gfMulAux_xor_left 8 a a' b ha ha'

/-- Every byte is a XOR of powers of two: the induction principle used to
extend facts about `gfMul` from basis bits to all bytes. -/
theorem gf_xor_induction (P : Nat → Prop) (h0 : P 0) (hb : ∀ i < 8, P (2 ^ i))
    (hx : ∀ a b, a < 256 → b < 256 → P a → P b → P (a ^^^ b)) :
    ∀ a < 256, P a := by
  suffices h : ∀ n, n ≤ 8 → ∀ a, a < 2 ^ n → P a by
    intro a ha
    exact h 8 (le_refl 8) a (by omega)
  intro n
  induction n with
  | zero => intro _ a ha; interval_cases a; exact h0
  | succ n ih =>
    intro hn a ha
    by_cases hlow : a < 2 ^ n
    · exact ih (by omega) a hlow
    · have hpow : 2 ^ (n + 1) = 2 ^ n * 2 := by rw [Nat.pow_succ]
      have hr : a - 2 ^ n < 2 ^ n := by omega
      have hsplit : a = 2 ^ n ^^^ (a - 2 ^ n) := by
        rw [two_pow_xor_eq_add n (a - 2 ^ n) hr]; omega
      rw [hsplit]
      have hn8 : n < 8 := by omega
      have h2n : 2 ^ n < 256 := by
        calc 2 ^ n < 2 ^ 8 := Nat.pow_lt_pow_right (by omega) hn8
          _ = 256 := by norm_num
      exact hx (2 ^ n) (a - 2 ^ n) h2n (by omega) (hb n hn8)
        (ih (by omega) (a - 2 ^ n) hr)

theorem gfMul_pow_comm : ∀ i < 8, ∀ j < 8, gfMul (2 ^ i) (2 ^ j) = gfMul (2 ^ j) (2 ^ i) := by
  decide

theorem gfMul_comm : ∀ a b : Nat, a < 256 → b < 256 → gfMul a b = gfMul b a := by
  have step2 : ∀ i < 8, ∀ b < 256, gfMul (2 ^ i) b = gfMul b (2 ^ i) := by
    intro i hi
    refine gf_xor_induction (fun b => gfMul (2 ^ i) b = gfMul b (2 ^ i)) ?_ ?_ ?_
    · show gfMul (2 ^ i) 0 = gfMul 0 (2 ^ i)
      rw [gfMul_zero, zero_gfMul]
    · intro j hj; exact gfMul_pow_comm i hi j hj
    · intro u v hu hv hPu hPv
      show gfMul (2 ^ i) (u ^^^ v) = gfMul (u ^^^ v) (2 ^ i)
      rw [gfMul_xor_right, gfMul_xor_left u v _ hu hv, hPu, hPv]
  intro a b ha hb
  refine gf_xor_induction (fun a => ∀ b < 256, gfMul a b = gfMul b a) ?_ ?_ ?_ a ha b hb
  · intro b _
    show gfMul 0 b = gfMul b 0
    rw [gfMul_zero, zero_gfMul]
  · intro i hi b' hb'; exact step2 i hi b' hb'
  · intro u v hu hv hPu hPv b' hb'
    show gfMul (u ^^^ v) b' = gfMul b' (u ^^^ v)
    rw [gfMul_xor_left u v b' hu hv, gfMul_xor_right, hPu b' hb', hPv b' hb']

theorem gfMul_pow_assoc :
    ∀ i < 8, ∀ j < 8, ∀ k < 8,
      gfMul (gfMul (2 ^ i) (2 ^ j)) (2 ^ k) = gfMul (2 ^ i) (gfMul (2 ^ j) (2 ^ k)) := by
  decide

theorem gfMul_assoc :
    ∀ a < 256, ∀ b < 256, ∀ c < 256,
      gfMul (gfMul a b) c = gfMul a (gfMul b c) := by
  have step_bc : ∀ i < 8, ∀ j < 8, ∀ c < 256,
      gfMul (gfMul (2 ^ i) (2 ^ j)) c = gfMul (2 ^ i) (gfMul (2 ^ j) c) := by
    intro i hi j hj
    refine gf_xor_induction
      (fun c => gfMul (gfMul (2 ^ i) (2 ^ j)) c = gfMul (2 ^ i) (gfMul (2 ^ j) c)) ?_ ?_ ?_
    · show gfMul (gfMul (2 ^ i) (2 ^ j)) 0 = gfMul (2 ^ i) (gfMul (2 ^ j) 0)
      rw [gfMul_zero, gfMul_zero, gfMul_zero]
    · intro k hk; exact gfMul_pow_assoc i hi j hj k hk
    · intro u v _ _ hPu hPv
      show gfMul (gfMul (2 ^ i) (2 ^ j)) (u ^^^ v)
        = gfMul (2 ^ i) (gfMul (2 ^ j) (u ^^^ v))
      rw [gfMul_xor_right, gfMul_xor_right, gfMul_xor_right, hPu, hPv]
  have step_b : ∀ i < 8, ∀ b < 256, ∀ c < 256,
      gfMul (gfMul (2 ^ i) b) c = gfMul (2 ^ i) (gfMul b c) := by
    intro i hi
    refine gf_xor_induction
      (fun b => ∀ c < 256, gfMul (gfMul (2 ^ i) b) c = gfMul (2 ^ i) (gfMul b c)) ?_ ?_ ?_
    · intro c _
      show gfMul (gfMul (2 ^ i) 0) c = gfMul (2 ^ i) (gfMul 0 c)
      rw [gfMul_zero, zero_gfMul, gfMul_zero]
    · intro j hj c hc; exact step_bc i hi j hj c hc
    · intro u v hu hv hPu hPv c hc
      show gfMul (gfMul (2 ^ i) (u ^^^ v)) c = gfMul (2 ^ i) (gfMul (u ^^^ v) c)
      have h2i : (2 : Nat) ^ i < 256 := by
        calc 2 ^ i < 2 ^ 8 := Nat.pow_lt_pow_right (by omega) hi
          _ = 256 := by norm_num
      rw [gfMul_xor_right, gfMul_xor_left _ _ _ (gfMul_lt u h2i) (gfMul_lt v h2i),
        gfMul_xor_left _ _ _ hu hv, gfMul_xor_right, hPu c hc, hPv c hc]
  refine gf_xor_induction
    (fun a => ∀ b < 256, ∀ c < 256, gfMul (gfMul a b) c = gfMul a (gfMul b c)) ?_ ?_ ?_
  · intro b _ c _
    show gfMul (gfMul 0 b) c = gfMul 0 (gfMul b c)
    rw [zero_gfMul, zero_gfMul, zero_gfMul]
  · intro i hi b hb c hc; exact step_b i hi b hb c hc
  · intro u v hu hv hPu hPv b hb c hc
    show gfMul (gfMul (u ^^^ v) b) c = gfMul (u ^^^ v) (gfMul b c)
    rw [gfMul_xor_left u v b hu hv,
      gfMul_xor_left _ _ _ (gfMul_lt b hu) (gfMul_lt b hv),
      gfMul_xor_left u v _ hu hv, hPu b hb c hc, hPv b hb c hc]

theorem gfMul_one : ∀ a < 256, gfMul a 1 = a := by decide

theorem one_gfMul : ∀ b < 256, gfMul 1 b = b := by decide

set_option maxHeartbeats 1000000 in
theorem gfMul_gfInv : ∀ a < 256, a ≠ 0 → gfMul a (gfInv a) = 1 := by decide

theorem gfInv_lt {a : Nat} (ha : a < 256) : gfInv a < 256 := by
  simp only [gfInv, gfSq]
  exact gfMul_lt _ (gfMul_lt a ha)

theorem gfInv_zero : gfInv 0 = 0 := by decide

theorem gfDiv_lt {a : Nat} (b : Nat) (ha : a < 256) : gfDiv a b < 256 :=
  gfMul_lt _ ha

/-- The `Gf256` struct of the repository's `gf256` module (a wrapped byte
`poly`), modelled from the spec's data model for field elements. -/
structure Gf256 where
  poly : Fin 256
deriving DecidableEq

theorem gf256_val_inj : ∀ {a b : Gf256}, a.poly.val = b.poly.val → a = b := by
  intro ⟨⟨a, ha⟩⟩ ⟨⟨b, hb⟩⟩ h
  simp only at h
  subst h
  rfl

instance : Zero Gf256 := ⟨⟨⟨0, by omega⟩⟩⟩

instance : One Gf256 := ⟨⟨⟨1, by omega⟩⟩⟩

instance : Add Gf256 :=
  ⟨fun a b => ⟨⟨a.poly.val ^^^ b.poly.val, xor_lt_256 a.poly.isLt b.poly.isLt⟩⟩⟩

instance : Neg Gf256 := ⟨fun a => a⟩

instance : Mul Gf256 :=
  ⟨fun a b => ⟨⟨gfMul a.poly.val b.poly.val, gfMul_lt _ a.poly.isLt⟩⟩⟩

instance : Inv Gf256 := ⟨fun a => ⟨⟨gfInv a.poly.val, gfInv_lt a.poly.isLt⟩⟩⟩

theorem gf256_add_val (a b : Gf256) : (a + b).poly.val = a.poly.val ^^^ b.poly.val := rfl

theorem gf256_mul_val (a b : Gf256) : (a * b).poly.val = gfMul a.poly.val b.poly.val := rfl

theorem gf256_inv_def (a : Gf256) :
    a⁻¹ = Gf256.mk ⟨gfInv a.poly.val, gfInv_lt a.poly.isLt⟩ := rfl

theorem gf256_inv_val (a : Gf256) : a⁻¹.poly.val = gfInv a.poly.val := by
  rw [gf256_inv_def]

theorem gf256_neg (a : Gf256) : -a = a := rfl

theorem gf256_zero_val : (0 : Gf256).poly.val = 0 := rfl

theorem gf256_one_val : (1 : Gf256).poly.val = 1 := rfl

instance : Field Gf256 :=
  Field.ofMinimalAxioms Gf256
    (fun a b c => gf256_val_inj (by
      simp only [gf256_add_val]
      exact Nat.xor_assoc _ _ _))
    (fun a => gf256_val_inj (by
      simp only [gf256_add_val, gf256_zero_val]
      exact Nat.zero_xor _))
    (fun a => gf256_val_inj (by
      simp only [gf256_add_val, gf256_neg, gf256_zero_val]
      exact Nat.xor_self _))
    (fun a b c => gf256_val_inj (by
      simp only [gf256_mul_val]
      exact gfMul_assoc _ a.poly.isLt _ b.poly.isLt _ c.poly.isLt))
    (fun a b => gf256_val_inj (by
      simp only [gf256_mul_val]
      exact gfMul_comm _ _ a.poly.isLt b.poly.isLt))
    (fun a => gf256_val_inj (by
      simp only [gf256_mul_val, gf256_one_val]
      exact one_gfMul _ a.poly.isLt))
    (fun a ha => gf256_val_inj (by
      simp only [gf256_mul_val, gf256_inv_val, gf256_one_val]
      refine gfMul_gfInv _ a.poly.isLt ?_
      intro hz
      exact ha (gf256_val_inj (by rw [hz, gf256_zero_val]))))
    (gf256_val_inj (by
      simp only [gf256_inv_val, gf256_zero_val]
      exact gfInv_zero))
    (fun a b c => gf256_val_inj (by
      simp only [gf256_mul_val, gf256_add_val]
      exact gfMul_xor_right _ _ _))
    ⟨0, 1, by decide⟩

/-- `Gf256::from_byte` of the spec's public contract: the identity mapping of
the underlying byte (reduced mod 256 to make it total on `Nat`). -/
def from_byte (b : Nat) : Gf256 := ⟨⟨b % 256, Nat.mod_lt _ (by omega)⟩⟩

/-- `Gf256::to_byte` of the spec's public contract. -/
def to_byte (a : Gf256) : Nat := a.poly.val

theorem to_byte_lt (a : Gf256) : to_byte a < 256 := a.poly.isLt

theorem to_byte_from_byte {a : Nat} (ha : a < 256) : to_byte (from_byte a) = a := by
  simp only [to_byte, from_byte]
  exact Nat.mod_eq_of_lt ha

theorem from_byte_to_byte (a : Gf256) : from_byte (to_byte a) = a :=
  gf256_val_inj (by
    simp only [to_byte, from_byte]
    exact Nat.mod_eq_of_lt a.poly.isLt)

theorem from_byte_inj {a b : Nat} (ha : a < 256) (hb : b < 256)
    (h : from_byte a = from_byte b) : a = b := by
  have := congrArg to_byte h
  rwa [to_byte_from_byte ha, to_byte_from_byte hb] at this

theorem from_byte_add {a b : Nat} (ha : a < 256) (hb : b < 256) :
    from_byte (a ^^^ b) = from_byte a + from_byte b :=
  gf256_val_inj (by
    simp only [from_byte, gf256_add_val]
    rw [Nat.mod_eq_of_lt (xor_lt_256 ha hb), Nat.mod_eq_of_lt ha, Nat.mod_eq_of_lt hb])

theorem from_byte_sub {a b : Nat} (ha : a < 256) (hb : b < 256) :
    from_byte (a ^^^ b) = from_byte a - from_byte b := by
  rw [sub_eq_add_neg, gf256_neg]
  exact from_byte_add ha hb

theorem from_byte_mul {a b : Nat} (ha : a < 256) (hb : b < 256) :
    from_byte (gfMul a b) = from_byte a * from_byte b :=
  gf256_val_inj (by
    simp only [from_byte, gf256_mul_val]
    rw [Nat.mod_eq_of_lt (gfMul_lt _ ha), Nat.mod_eq_of_lt ha, Nat.mod_eq_of_lt hb])

theorem from_byte_inv {a : Nat} (ha : a < 256) :
    from_byte (gfInv a) = (from_byte a)⁻¹ :=
  gf256_val_inj (by
    simp only [from_byte, gf256_inv_val]
    rw [Nat.mod_eq_of_lt (gfInv_lt ha), Nat.mod_eq_of_lt ha])

theorem from_byte_div {a b : Nat} (ha : a < 256) (hb : b < 256) :
    from_byte (gfDiv a b) = from_byte a / from_byte b := by
  rw [div_eq_mul_inv, gfDiv, from_byte_mul ha (gfInv_lt hb), from_byte_inv hb]

theorem from_byte_zero : from_byte 0 = 0 := rfl

theorem from_byte_one : from_byte 1 = 1 := rfl

theorem from_byte_eq_zero {a : Nat} (ha : a < 256) : from_byte a = 0 ↔ a = 0 := by
  constructor
  · intro h; exact from_byte_inj ha (by omega) (by rw [h, from_byte_zero])
  · intro h; rw [h, from_byte_zero]

/-- One step of `encode`'s inner loop (main.rs lines 90-93): state is
`(acc, fac)`; `acc = acc + fac * coeff; fac = fac * x` in GF(2^8). -/
def encodeStep (x : Nat) (st : Nat × Nat) (coeff : Nat) : Nat × Nat :=
  (st.1 ^^^ gfMul st.2 coeff, gfMul st.2 x)

/-- The byte `encode` (main.rs lines 85-97) writes for evaluation point `x`:
the polynomial with coefficient vector `src` evaluated at `x`, by the
accumulating loop of the source. -/
def encodeAt (src : List Nat) (x : Nat) : Nat :=
  (src.foldl (encodeStep x) (0, 1)).1

/-- `encode` of main.rs (lines 85-97): evaluates the polynomial with
coefficients `src` at x = 1, 2, ..., n and returns the bytes in that order
(the writer `w` is modelled by the returned list). -/
def encode (src : List Nat) (n : Nat) : List Nat :=
  (List.range' 1 n).map (encodeAt src)

/-- The polynomial over GF(2^8) whose coefficient list (constant term first)
is `l`: the mathematical reading of a coefficient vector. -/
noncomputable def listPoly : List Nat → Polynomial Gf256
  | [] => 0
  | c :: cs => Polynomial.C (from_byte c) + Polynomial.X * listPoly cs

theorem listPoly_coeff : ∀ (l : List Nat) (i : Nat),
    (listPoly l).coeff i = from_byte (l.getD i 0) := by
  intro l
  induction l with
  | nil =>
    intro i
    simp [listPoly, from_byte_zero]
  | cons c cs ih =>
    intro i
    cases i with
    | zero =>
      simp only [listPoly, Polynomial.coeff_add, Polynomial.coeff_C, if_pos rfl,
        Polynomial.mul_coeff_zero, Polynomial.coeff_X_zero, zero_mul, add_zero,
        List.getD]
      simp
    | succ i =>
      simp only [listPoly, Polynomial.coeff_add, Polynomial.coeff_C,
        if_neg (Nat.succ_ne_zero i), Polynomial.coeff_X_mul, ih i, zero_add,
        List.getD]
      simp

theorem listPoly_degree_lt (l : List Nat) :
    (listPoly l).degree < (l.length : WithBot Nat) := by
  rw [show ((l.length : WithBot Nat) = ((l.length : Nat) : WithBot Nat)) from rfl,
    Polynomial.degree_lt_iff_coeff_zero]
  intro m hm
  rw [listPoly_coeff l m, List.getD_eq_default _ _ (by exact_mod_cast hm), from_byte_zero]

theorem listPoly_eval_zero (c : Nat) (cs : List Nat) :
    Polynomial.eval 0 (listPoly (c :: cs)) = from_byte c := by
  simp [listPoly]

/-- The encode loop computes polynomial evaluation: the loop invariant on
`(acc, fac)`. -/
theorem encode_foldl_eval (x : Nat) (hx : x < 256) :
    ∀ (l : List Nat) (acc fac : Nat), (∀ b ∈ l, b < 256) → acc < 256 → fac < 256 →
      from_byte ((l.foldl (encodeStep x) (acc, fac)).1)
        = from_byte acc + from_byte fac * Polynomial.eval (from_byte x) (listPoly l) := by
  intro l
  induction l with
  | nil =>
    intro acc fac _ _ _
    simp [listPoly]
  | cons c cs ih =>
    intro acc fac hl hacc hfac
    have hc : c < 256 := hl c (List.mem_cons_self c cs)
    have hcs : ∀ b ∈ cs, b < 256 := fun b hb => hl b (List.mem_cons_of_mem c hb)
    have hstep : encodeStep x (acc, fac) c = (acc ^^^ gfMul fac c, gfMul fac x) := rfl
    rw [List.foldl_cons, hstep,
      ih (acc ^^^ gfMul fac c) (gfMul fac x) hcs (xor_lt_256 hacc (gfMul_lt c hfac))
        (gfMul_lt x hfac),
      from_byte_add hacc (gfMul_lt c hfac), from_byte_mul hfac hx,
      from_byte_mul hfac hc, listPoly]
    simp only [Polynomial.eval_add, Polynomial.eval_mul, Polynomial.eval_C,
      Polynomial.eval_X]
    ring

/-- `encodeAt` is evaluation of the coefficient polynomial. -/
theorem encodeAt_eval {src : List Nat} {x : Nat} (hsrc : ∀ b ∈ src, b < 256)
    (hx : x < 256) :
    from_byte (encodeAt src x) = Polynomial.eval (from_byte x) (listPoly src) := by
  rw [encodeAt, encode_foldl_eval x hx src 0 1 hsrc (by omega) (by omega),
    from_byte_zero, from_byte_one]
  ring

theorem encodeAt_lt (src : List Nat) (x : Nat) : encodeAt src x < 256 := by
  suffices h : ∀ (l : List Nat) (acc fac : Nat), acc < 256 → fac < 256 →
      (l.foldl (encodeStep x) (acc, fac)).1 < 256 by
    exact h src 0 1 (by omega) (by omega)
  intro l
  induction l with
  | nil => intro acc fac hacc _; exact hacc
  | cons c cs ih =>
    intro acc fac hacc hfac
    exact ih _ _ (xor_lt_256 hacc (gfMul_lt c hfac)) (gfMul_lt x hfac)

/-- The inner loop of `lagrange_interpolate` (main.rs lines 108-116), building
the Lagrange basis factor `lix` for the `i`-th point; the source's
`assert!(delta.poly != 0, "Duplicate shares")` is modelled as `none`
(the process aborts). -/
def lagrange_lix (src : List (Nat × Nat)) (i : Nat) (x xi : Nat) : Option Nat :=
  src.enum.foldlM
    (fun lix p =>
      if i ≠ p.1 then
        let delta := xi ^^^ p.2.1
        if delta = 0 then none
        else some (gfDiv (gfMul lix (x ^^^ p.2.1)) delta)
      else some lix)
    1

/-- `lagrange_interpolate` of main.rs (lines 102-120): evaluates the
interpolated polynomial through the points `src` at `raw_x`, in GF(2^8)
(subtraction is XOR); `none` models the duplicate-shares assertion firing. -/
def lagrange_interpolate (src : List (Nat × Nat)) (raw_x : Nat) : Option Nat :=
  src.enum.foldlM
    (fun sum p => do
      let lix ← lagrange_lix src p.1 raw_x p.2.1
      some (sum ^^^ gfMul lix p.2.2))
    0

/-- The value `lagrange_interpolate` computes when no assertion fires. -/
def lagrange_lix_pure (src : List (Nat × Nat)) (i : Nat) (x xi : Nat) : Nat :=
  src.enum.foldl
    (fun lix p =>
      if i ≠ p.1 then gfDiv (gfMul lix (x ^^^ p.2.1)) (xi ^^^ p.2.1) else lix)
    1

/-- The value `lagrange_interpolate` computes when no assertion fires. -/
def lagrange_pure (src : List (Nat × Nat)) (raw_x : Nat) : Nat :=
  src.enum.foldl
    (fun sum p => sum ^^^ gfMul (lagrange_lix_pure src p.1 raw_x p.2.1) p.2.2)
    0

/-- An `Option`-valued fold whose steps all succeed equals the pure fold. -/
theorem foldlM_option_eq_foldl {α β : Type} (f : β → α → Option β) (g : β → α → β) :
    ∀ (l : List α) (b0 : β), (∀ b a, a ∈ l → f b a = some (g b a)) →
      l.foldlM f b0 = some (l.foldl g b0) := by
  intro l
  induction l with
  | nil => intro b0 _; rfl
  | cons a l ih =>
    intro b0 h
    have hstep : f b0 a = some (g b0 a) := h b0 a (List.mem_cons_self a l)
    simp only [List.foldlM, hstep, Option.bind_some, List.foldl_cons]
    exact ih (g b0 a) (fun b a' ha' => h b a' (List.mem_cons_of_mem a ha'))

/-- Indices of `l.enum` members are positions, values are entries. -/
theorem mem_enum_spec {α : Type} {l : List α} {p : Nat × α} (hp : p ∈ l.enum) :
    p.1 < l.length ∧ l.getD p.1 p.2 = p.2 := by
  obtain ⟨k, hk, hget⟩ := List.getElem_of_mem hp
  have hk' : k < l.length := by
    have : l.enum.length = l.length := by
      simp [List.enum]
    omega
  rw [List.getElem_enum] at hget
  constructor
  · rw [← hget]
    exact hk'
  · rw [← hget]
    simp only
    rw [List.getD_eq_getElem?_getD, List.getElem?_eq_getElem hk']
    rfl

/-- With pairwise-distinct x coordinates no `lix` assertion fires. -/
theorem lagrange_lix_total {src : List (Nat × Nat)} {i x xi : Nat}
    (h : ∀ p ∈ src.enum, i ≠ p.1 → xi ≠ p.2.1) :
    lagrange_lix src i x xi = some (lagrange_lix_pure src i x xi) := by
  refine foldlM_option_eq_foldl _ _ _ _ ?_
  intro b p hp
  by_cases hip : i ≠ p.1
  · have hne : xi ≠ p.2.1 := h p hp hip
    have hd : ¬ (xi ^^^ p.2.1 = 0) := fun hz => hne (Nat.xor_eq_zero.mp hz)
    simp only [lagrange_lix_pure, if_pos hip, if_neg hd]
  · simp only [if_neg hip]

theorem mem_enum_getElem? {α : Type} {l : List α} {p : Nat × α} (hp : p ∈ l.enum) :
    l[p.1]? = some p.2 := by
  obtain ⟨k, hk, hget⟩ := List.getElem_of_mem hp
  have hk' : k < l.length := by
    have : l.enum.length = l.length := by simp [List.enum]
    omega
  rw [List.getElem_enum] at hget
  rw [← hget]
  exact List.getElem?_eq_getElem hk'

/-- Distinct positions of a list with `Nodup` first components carry distinct
first components. -/
theorem nodup_fst_ne {β : Type} {src : List (Nat × β)}
    (h : (src.map Prod.fst).Nodup) {p q : Nat × (Nat × β)}
    (hp : p ∈ src.enum) (hq : q ∈ src.enum) (hne : p.1 ≠ q.1) :
    p.2.1 ≠ q.2.1 := by
  intro heq
  have hp' := mem_enum_getElem? hp
  have hq' := mem_enum_getElem? hq
  have hplt : p.1 < src.length := by
    by_contra hcon
    rw [List.getElem?_eq_none (by omega)] at hp'
    exact Option.noConfusion hp'
  have hqlt : q.1 < src.length := by
    by_contra hcon
    rw [List.getElem?_eq_none (by omega)] at hq'
    exact Option.noConfusion hq'
  have hpe : src[p.1] = p.2 := by
    rw [List.getElem?_eq_getElem hplt] at hp'
    exact Option.some.inj hp'
  have hqe : src[q.1] = q.2 := by
    rw [List.getElem?_eq_getElem hqlt] at hq'
    exact Option.some.inj hq'
  have hinj := List.nodup_iff_injective_get.mp h
  have hlen : (src.map Prod.fst).length = src.length := List.length_map _ _
  have : (src.map Prod.fst).get ⟨p.1, by omega⟩ = (src.map Prod.fst).get ⟨q.1, by omega⟩ := by
    simp only [List.get_eq_getElem, List.getElem_map, hpe, hqe, heq]
  have := hinj this
  exact hne (by
    have := congrArg Fin.val this
    simpa using this)

/-- With pairwise-distinct x coordinates, `lagrange_interpolate` never hits
the duplicate-shares assertion: it returns its pure value. -/
theorem lagrange_interpolate_total {src : List (Nat × Nat)} (x : Nat)
    (hnodup : (src.map Prod.fst).Nodup) :
    lagrange_interpolate src x = some (lagrange_pure src x) := by
  refine foldlM_option_eq_foldl _ _ _ _ ?_
  intro b p hp
  rw [lagrange_lix_total (fun q hq hne => nodup_fst_ne hnodup hp hq hne)]
  rfl

theorem lagrange_lix_pure_lt (src : List (Nat × Nat)) (i x xi : Nat) :
    lagrange_lix_pure src i x xi < 256 := by
  suffices h : ∀ (l : List (Nat × (Nat × Nat))) (init : Nat), init < 256 →
      (l.foldl (fun lix p =>
        if i ≠ p.1 then gfDiv (gfMul lix (x ^^^ p.2.1)) (xi ^^^ p.2.1) else lix) init) < 256 by
    exact h src.enum 1 (by omega)
  intro l
  induction l with
  | nil => intro init hinit; exact hinit
  | cons p l ih =>
    intro init hinit
    simp only [List.foldl_cons]
    by_cases hip : i ≠ p.1
    · rw [if_pos hip]
      exact ih _ (gfDiv_lt _ (gfMul_lt _ hinit))
    · rw [if_neg hip]
      exact ih _ hinit

theorem lagrange_pure_lt (src : List (Nat × Nat)) (x : Nat) :
    lagrange_pure src x < 256 := by
  suffices h : ∀ (l : List (Nat × (Nat × Nat))) (init : Nat), init < 256 →
      (l.foldl (fun sum p =>
        sum ^^^ gfMul (lagrange_lix_pure src p.1 x p.2.1) p.2.2) init) < 256 by
    exact h src.enum 0 (by omega)
  intro l
  induction l with
  | nil => intro init hinit; exact hinit
  | cons p l ih =>
    intro init hinit
    simp only [List.foldl_cons]
    exact ih _ (xor_lt_256 hinit (gfMul_lt _ (lagrange_lix_pure_lt src p.1 x p.2.1)))

theorem enum_snd_mem {α : Type} {l : List α} {p : Nat × α} (hp : p ∈ l.enum) :
    p.2 ∈ l := by
  have h := mem_enum_getElem? hp
  obtain ⟨hlt, he⟩ := List.getElem?_eq_some_iff.mp h
  exact he ▸ List.getElem_mem hlt

theorem enum_map_eq_ofFn {α β : Type} (l : List α) (f : Nat × α → β) :
    l.enum.map f = List.ofFn (fun j : Fin l.length => f (j.val, l.get j)) := by
  apply List.ext_getElem
  · simp [List.enum]
  · intro k h1 h2
    simp [List.getElem_map, List.getElem_enum, List.getElem_ofFn, List.get_eq_getElem]

/-- Lifting the `lix` loop to the field: it accumulates a product. -/
theorem lix_fold_lift {i x xi : Nat} (hx : x < 256) (hxi : xi < 256) :
    ∀ (l : List (Nat × (Nat × Nat))) (init : Nat), init < 256 →
      (∀ p ∈ l, p.2.1 < 256) →
      from_byte (l.foldl
        (fun lix p =>
          if i ≠ p.1 then gfDiv (gfMul lix (x ^^^ p.2.1)) (xi ^^^ p.2.1) else lix) init)
        = from_byte init *
          (l.map (fun p =>
            if i ≠ p.1 then
              (from_byte x - from_byte p.2.1) / (from_byte xi - from_byte p.2.1)
            else 1)).prod := by
  intro l
  induction l with
  | nil => intro init hinit _; simp
  | cons p l ih =>
    intro init hinit hmem
    have hpb : p.2.1 < 256 := hmem p (List.mem_cons_self p l)
    have hmem' : ∀ q ∈ l, q.2.1 < 256 := fun q hq => hmem q (List.mem_cons_of_mem p hq)
    simp only [List.foldl_cons, List.map_cons, List.prod_cons]
    by_cases hip : i ≠ p.1
    · rw [if_pos hip, if_pos hip,
        ih (gfDiv (gfMul init (x ^^^ p.2.1)) (xi ^^^ p.2.1))
          (gfDiv_lt _ (gfMul_lt _ hinit)) hmem',
        from_byte_div (gfMul_lt _ hinit) (xor_lt_256 hxi hpb),
        from_byte_mul hinit (xor_lt_256 hx hpb),
        from_byte_sub hx hpb, from_byte_sub hxi hpb]
      generalize (l.map fun p =>
        if i ≠ p.1 then
          (from_byte x - from_byte p.2.1) / (from_byte xi - from_byte p.2.1)
        else 1).prod = rest
      rw [div_eq_mul_inv, div_eq_mul_inv]
      ring
    · rw [if_neg hip, if_neg hip, ih init hinit hmem', one_mul]

/-- The `lix` factor as a product over all indices. -/
theorem lix_prod {src : List (Nat × Nat)} {i x xi : Nat}
    (hx : x < 256) (hxi : xi < 256) (hsrc : ∀ p ∈ src, p.1 < 256) :
    from_byte (lagrange_lix_pure src i x xi)
      = ∏ j : Fin src.length,
          (if i ≠ j.val then
            (from_byte x - from_byte (src.get j).1)
              / (from_byte xi - from_byte (src.get j).1)
          else 1) := by
  have hmem : ∀ p ∈ src.enum, p.2.1 < 256 := fun p hp => hsrc p.2 (enum_snd_mem hp)
  rw [lagrange_lix_pure, lix_fold_lift hx hxi src.enum 1 (by omega) hmem,
    from_byte_one, one_mul,
    enum_map_eq_ofFn src
      (fun p => if i ≠ p.1 then
        (from_byte x - from_byte p.2.1) / (from_byte xi - from_byte p.2.1) else 1),
    List.prod_ofFn]

/-- Evaluating a Lagrange basis polynomial over all of `Fin len` as a product
with a unit factor at the base index. -/
theorem basis_eval_prod {len : Nat} (v : Fin len → Gf256) (i : Fin len) (X : Gf256) :
    Polynomial.eval X (Lagrange.basis Finset.univ v i)
      = ∏ j : Fin len, (if i.val ≠ j.val then (X - v j) / (v i - v j) else 1) := by
  rw [Lagrange.basis, Polynomial.eval_prod]
  have herase := Finset.prod_erase
    (f := fun j : Fin len => if i.val ≠ j.val then (X - v j) / (v i - v j) else 1)
    (a := i) Finset.univ (by simp)
  rw [← herase]
  refine Finset.prod_congr rfl ?_
  intro j hj
  have hji : j ≠ i := (Finset.mem_erase.mp hj).1
  have hne : i.val ≠ j.val := fun h => hji (Fin.ext h.symm)
  show Polynomial.eval X (Lagrange.basisDivisor (v i) (v j))
    = if i.val ≠ j.val then (X - v j) / (v i - v j) else 1
  rw [if_pos hne]
  simp only [Lagrange.basisDivisor, Polynomial.eval_mul, Polynomial.eval_C,
    Polynomial.eval_sub, Polynomial.eval_X]
  rw [div_eq_mul_inv]
  ring

/-- Lifting the outer interpolation loop to the field: it accumulates a sum. -/
theorem sum_fold_lift {src : List (Nat × Nat)} {x : Nat} :
    ∀ (l : List (Nat × (Nat × Nat))) (init : Nat), init < 256 →
      (∀ p ∈ l, p.2.2 < 256) →
      from_byte (l.foldl
        (fun sum p => sum ^^^ gfMul (lagrange_lix_pure src p.1 x p.2.1) p.2.2) init)
        = from_byte init +
          (l.map (fun p =>
            from_byte (lagrange_lix_pure src p.1 x p.2.1) * from_byte p.2.2)).sum := by
  intro l
  induction l with
  | nil => intro init hinit _; simp
  | cons p l ih =>
    intro init hinit hmem
    have hpy : p.2.2 < 256 := hmem p (List.mem_cons_self p l)
    have hmem' : ∀ q ∈ l, q.2.2 < 256 := fun q hq => hmem q (List.mem_cons_of_mem p hq)
    have hlix := lagrange_lix_pure_lt src p.1 x p.2.1
    simp only [List.foldl_cons, List.map_cons, List.sum_cons]
    rw [ih _ (xor_lt_256 hinit (gfMul_lt _ hlix)) hmem',
      from_byte_add hinit (gfMul_lt _ hlix), from_byte_mul hlix hpy]
    ring

/-- The interpolation loop's value as a sum over all indices. -/
theorem lagrange_pure_sum {src : List (Nat × Nat)} {x : Nat}
    (hsrc : ∀ p ∈ src, p.2 < 256) :
    from_byte (lagrange_pure src x)
      = ∑ j : Fin src.length,
          from_byte (lagrange_lix_pure src j.val x (src.get j).1)
            * from_byte (src.get j).2 := by
  have hmem : ∀ p ∈ src.enum, p.2.2 < 256 := fun p hp => hsrc p.2 (enum_snd_mem hp)
  rw [lagrange_pure, sum_fold_lift src.enum 0 (by omega) hmem, from_byte_zero,
    enum_map_eq_ofFn src
      (fun p => from_byte (lagrange_lix_pure src p.1 x p.2.1) * from_byte p.2.2),
    List.sum_ofFn]
  simp

/-- The decoder's pure value is the evaluation at `x` of the Lagrange
interpolant through the given points. -/
theorem lagrange_pure_eval {src : List (Nat × Nat)} {x : Nat} (hx : x < 256)
    (hfst : ∀ p ∈ src, p.1 < 256) (hsnd : ∀ p ∈ src, p.2 < 256) :
    from_byte (lagrange_pure src x)
      = Polynomial.eval (from_byte x)
          (Lagrange.interpolate Finset.univ
            (fun j : Fin src.length => from_byte (src.get j).1)
            (fun j : Fin src.length => from_byte (src.get j).2)) := by
  rw [lagrange_pure_sum hsnd, Lagrange.interpolate_apply, Polynomial.eval_finset_sum]
  refine Finset.sum_congr rfl ?_
  intro j _
  rw [Polynomial.eval_mul, Polynomial.eval_C,
    basis_eval_prod (fun j : Fin src.length => from_byte (src.get j).1) j (from_byte x),
    ← lix_prod hx ((src.get j).1 < 256 |> fun _ => hfst (src.get j) (src.get_mem j ..)) hfst]
  · ring

/-- Interpolating the encoder's evaluations at distinct points recovers the
constant coefficient: the heart of the round-trip. -/
theorem lagrange_recovers {coeffs xs : List Nat}
    (hc : ∀ b ∈ coeffs, b < 256) (hxs : ∀ a ∈ xs, a < 256)
    (hnodup : xs.Nodup) (hlen : xs.length = coeffs.length) :
    lagrange_interpolate (xs.map (fun a => (a, encodeAt coeffs a))) 0
      = some (coeffs.getD 0 0) := by
  set src := xs.map (fun a => (a, encodeAt coeffs a)) with hsrc
  have hsrc_len : src.length = xs.length := List.length_map _ _
  have hfst_eq : src.map Prod.fst = xs := by
    rw [hsrc, List.map_map]
    exact List.map_congr_left (fun a _ => rfl) |>.trans (List.map_id xs)
  have hfst_nodup : (src.map Prod.fst).Nodup := by rw [hfst_eq]; exact hnodup
  have hsrc_get : ∀ j : Fin src.length,
      src.get j = (xs.get ⟨j.val, by omega⟩, encodeAt coeffs (xs.get ⟨j.val, by omega⟩)) := by
    intro j
    simp only [hsrc, List.get_eq_getElem, List.getElem_map]
  have hfst : ∀ p ∈ src, p.1 < 256 := by
    intro p hp
    obtain ⟨a, ha, rfl⟩ := List.mem_map.mp hp
    exact hxs a ha
  have hsnd : ∀ p ∈ src, p.2 < 256 := by
    intro p hp
    obtain ⟨a, ha, rfl⟩ := List.mem_map.mp hp
    exact encodeAt_lt coeffs a
  rw [lagrange_interpolate_total 0 hfst_nodup]
  congr 1
  have hgetD : coeffs.getD 0 0 < 256 := by
    cases coeffs with
    | nil => simp [List.getD]
    | cons c cs =>
      have : c < 256 := hc c (List.mem_cons_self c cs)
      simpa [List.getD] using this
  refine from_byte_inj (lagrange_pure_lt src 0) hgetD ?_
  rw [lagrange_pure_eval (by omega) hfst hsnd]
  have hinj : Set.InjOn (fun j : Fin src.length => from_byte (src.get j).1)
      (↑(Finset.univ : Finset (Fin src.length))) := by
    intro j _ j' _ hjj
    simp only [hsrc_get] at hjj
    have hj := hxs _ (xs.get_mem j.val (by omega))
    have hj' := hxs _ (xs.get_mem j'.val (by omega))
    have heq := from_byte_inj hj hj' hjj
    have h2 : (⟨j.val, by omega⟩ : Fin xs.length) = ⟨j'.val, by omega⟩ :=
      List.nodup_iff_injective_get.mp hnodup heq
    have h3 : j.val = j'.val := by simpa using h2
    exact Fin.ext h3
  have hdeg : (listPoly coeffs).degree
      < ((Finset.univ : Finset (Fin src.length)).card : WithBot Nat) := by
    have h1 := listPoly_degree_lt coeffs
    have h2 : (Finset.univ : Finset (Fin src.length)).card = coeffs.length := by
      rw [Finset.card_univ, Fintype.card_fin, hsrc_len, hlen]
    rw [h2]
    exact h1
  have heval : ∀ j ∈ (Finset.univ : Finset (Fin src.length)),
      Polynomial.eval (from_byte (src.get j).1) (listPoly coeffs)
        = from_byte (src.get j).2 := by
    intro j _
    rw [hsrc_get j]
    exact (encodeAt_eval hc (hxs _ (xs.get_mem j.val (by omega)))).symm
  have hinterp := (Lagrange.eq_interpolate_of_eval_eq
    (fun j : Fin src.length => from_byte (src.get j).2) hinj hdeg heval).symm
  rw [hinterp, from_byte_zero, ← Polynomial.coeff_zero_eq_eval_zero, listPoly_coeff]

/-- `secret_share` of main.rs (lines 122-140).  The `OsRng` randomness is a
parameter: `rand c` is the byte vector filled into `col_in[1..]` for column
`c` (the caller's contract makes it k-1 bytes); `col_in[0]` is the secret
byte, and column `c` of every share is set to `encode col_in n`'s output. -/
def secret_share (src : List Nat) (k : Nat) (n : Nat) (rand : Nat → List Nat) :
    List (List Nat) :=
  src.enum.foldl
    (fun result p =>
      List.zipWith (fun y share => share.set p.1 y) (encode (p.2 :: rand p.1) n) result)
    (List.replicate n (List.replicate src.length 0))

theorem encode_length (src : List Nat) (n : Nat) : (encode src n).length = n := by
  simp [encode, List.length_range']

theorem encode_getD {src : List Nat} {n j : Nat} (hj : j < n) :
    (encode src n).getD j 0 = encodeAt src (j + 1) := by
  rw [List.getD_eq_getElem?_getD,
    List.getElem?_eq_getElem (by rw [encode_length]; exact hj)]
  simp only [encode, List.getElem_map, List.getElem_range', Option.getD_some]
  congr 1
  omega

theorem getD_set_ne {l : List Nat} {i c y : Nat} (h : i ≠ c) :
    (l.set i y).getD c 0 = l.getD c 0 := by
  rw [List.getD_eq_getElem?_getD, List.getD_eq_getElem?_getD, List.getElem?_set_ne h]

theorem getD_set_self {l : List Nat} {i y : Nat} (h : i < l.length) :
    (l.set i y).getD i 0 = y := by
  rw [List.getD_eq_getElem?_getD, List.getElem?_set_self h]
  rfl

/-- One-dimensional spec of a fold that writes `g` at successive positions. -/
theorem row_fold_spec (g : Nat × Nat → Nat) :
    ∀ (rest : List Nat) (m : Nat) (row : List Nat),
      (((List.enumFrom m rest).foldl (fun r p => r.set p.1 (g p)) row).length
          = row.length) ∧
      (∀ c, c < m ∨ m + rest.length ≤ c →
        ((List.enumFrom m rest).foldl (fun r p => r.set p.1 (g p)) row).getD c 0
          = row.getD c 0) ∧
      (∀ idx, idx < rest.length → m + idx < row.length →
        ((List.enumFrom m rest).foldl (fun r p => r.set p.1 (g p)) row).getD (m + idx) 0
          = g (m + idx, rest.getD idx 0)) := by
  intro rest
  induction rest with
  | nil =>
    intro m row
    refine ⟨rfl, fun c _ => rfl, fun idx hidx _ => absurd hidx (by simp)⟩
  | cons s rest ih =>
    intro m row
    have hstep : List.enumFrom m (s :: rest) = (m, s) :: List.enumFrom (m + 1) rest := by
      simp [List.enumFrom]
    obtain ⟨ihlen, ihout, ihpos⟩ := ih (m + 1) (row.set m (g (m, s)))
    constructor
    · rw [hstep, List.foldl_cons]
      rw [ihlen, List.length_set]
    constructor
    · intro c hc
      rw [hstep, List.foldl_cons]
      have hlen1 : (s :: rest).length = rest.length + 1 := by simp
      rcases hc with h | h
      · rw [ihout c (by left; omega), getD_set_ne (by omega)]
      · rw [ihout c (by right; omega), getD_set_ne (by omega)]
    · intro idx hidx hlt
      rw [hstep, List.foldl_cons]
      cases idx with
      | zero =>
        have h1 : m + 0 < m + 1 ∨ (m + 1) + rest.length ≤ m + 0 := by left; omega
        rw [ihout (m + 0) h1, show m + 0 = m from rfl, getD_set_self (by omega)]
        simp [List.getD]
      | succ idx =>
        have h1 : idx < rest.length := by simp at hidx; omega
        have h2 : (m + 1) + idx < (row.set m (g (m, s))).length := by
          rw [List.length_set]; omega
        have h3 := ihpos idx h1 h2
        rw [show m + (idx + 1) = (m + 1) + idx by omega, h3]
        simp [List.getD]

theorem encode_getElem? {src : List Nat} {n j : Nat} (hj : j < n) :
    (encode src n)[j]? = some (encodeAt src (j + 1)) := by
  rw [List.getElem?_eq_getElem (by rw [encode_length]; exact hj)]
  have := @encode_getD src n j hj
  rw [List.getD_eq_getElem?_getD,
    List.getElem?_eq_getElem (by rw [encode_length]; exact hj)] at this
  simpa using this

/-- Each row of the share matrix evolves independently: the 2-D fold of
`secret_share` restricted to row `j` is a 1-D fold of `set`s. -/
theorem rows_evolve (n : Nat) (rand : Nat → List Nat) :
    ∀ (rest : List Nat) (m : Nat) (res : List (List Nat)) (j : Nat), j < n →
      res.length = n →
      (((List.enumFrom m rest).foldl
        (fun result p =>
          List.zipWith (fun y share => share.set p.1 y)
            (encode (p.2 :: rand p.1) n) result) res).length = n) ∧
      (((List.enumFrom m rest).foldl
        (fun result p =>
          List.zipWith (fun y share => share.set p.1 y)
            (encode (p.2 :: rand p.1) n) result) res).getD j []
        = (List.enumFrom m rest).foldl
            (fun r p => r.set p.1 (encodeAt (p.2 :: rand p.1) (j + 1)))
            (res.getD j [])) := by
  intro rest
  induction rest with
  | nil =>
    intro m res j hj hres
    exact ⟨hres, rfl⟩
  | cons s rest ih =>
    intro m res j hj hres
    have hstep : List.enumFrom m (s :: rest) = (m, s) :: List.enumFrom (m + 1) rest := by
      simp [List.enumFrom]
    have hlen' : (List.zipWith (fun y share => share.set m y)
        (encode (s :: rand m) n) res).length = n := by
      rw [List.length_zipWith, encode_length, hres]
      omega
    have hrow' : (List.zipWith (fun y share => share.set m y)
        (encode (s :: rand m) n) res).getD j []
        = (res.getD j []).set m (encodeAt (s :: rand m) (j + 1)) := by
      rw [List.getD_eq_getElem?_getD, List.getElem?_zipWith,
        encode_getElem? hj, List.getElem?_eq_getElem (by omega)]
      rw [List.getD_eq_getElem?_getD, List.getElem?_eq_getElem (by omega)]
      rfl
    obtain ⟨ih1, ih2⟩ := ih (m + 1)
      (List.zipWith (fun y share => share.set m y) (encode (s :: rand m) n) res)
      j hj hlen'
    constructor
    · rw [hstep, List.foldl_cons]
      exact ih1
    · rw [hstep, List.foldl_cons, List.foldl_cons]
      rw [show (List.zipWith (fun y share => share.set (m, s).1 y)
          (encode ((m, s).2 :: rand (m, s).1) n) res)
        = List.zipWith (fun y share => share.set m y) (encode (s :: rand m) n) res
        from rfl]
      rw [ih2, hrow']

theorem secret_share_length (src : List Nat) (k n : Nat) (rand : Nat → List Nat)
    (hn : 0 < n) :
    (secret_share src k n rand).length = n := by
  rw [secret_share, show src.enum = List.enumFrom 0 src from rfl]
  exact (rows_evolve n rand src 0 (List.replicate n (List.replicate src.length 0)) 0
    hn (List.length_replicate _ _)).1

theorem replicate_getD {n j : Nat} {a d : List Nat} (hj : j < n) :
    (List.replicate n a).getD j d = a := by
  rw [List.getD_eq_getElem?_getD, List.getElem?_replicate, if_pos hj]
  rfl

/-- Closed form of `secret_share`: share `j` (evaluation point x = j+1) holds
at byte `c` the polynomial evaluation of `secret[c] :: rand c` at `j+1`:
shares are in ascending x order, bytes in ascending column order. -/
theorem secret_share_entry {src : List Nat} {k n : Nat} {rand : Nat → List Nat}
    {j c : Nat} (hj : j < n) (hc : c < src.length) :
    ((secret_share src k n rand).getD j []).getD c 0
      = encodeAt (src.getD c 0 :: rand c) (j + 1) := by
  rw [secret_share, show src.enum = List.enumFrom 0 src from rfl]
  rw [(rows_evolve n rand src 0 (List.replicate n (List.replicate src.length 0)) j
    hj (List.length_replicate _ _)).2]
  rw [replicate_getD hj]
  have h3 := (row_fold_spec (fun p => encodeAt (p.2 :: rand p.1) (j + 1)) src 0
    (List.replicate src.length 0)).2.2 c hc
    (by rw [List.length_replicate]; omega)
  simp only [Nat.zero_add] at h3
  rw [h3]

theorem secret_share_row_length {src : List Nat} {k n : Nat} {rand : Nat → List Nat}
    {j : Nat} (hj : j < n) :
    ((secret_share src k n rand).getD j []).length = src.length := by
  rw [secret_share, show src.enum = List.enumFrom 0 src from rfl]
  rw [(rows_evolve n rand src 0 (List.replicate n (List.replicate src.length 0)) j
    hj (List.length_replicate _ _)).2]
  rw [replicate_getD hj]
  rw [(row_fold_spec (fun p => encodeAt (p.2 :: rand p.1) (j + 1)) src 0
    (List.replicate src.length 0)).1, List.length_replicate]

/-- The decoding core of `perform_decode` (main.rs lines 268-284): for each
byte index, gather `(x, y[byteindex])` from the first `k` shares and
interpolate at 0.  `shares[0]`'s length (behind `assert!(!shares.is_empty())`)
is read with a default. -/
def reconstruct (k : Nat) (shares : List (Nat × List Nat)) : Option (List Nat) :=
  (List.range (shares.headD (0, [])).2.length).mapM
    (fun byteindex =>
      lagrange_interpolate ((shares.take k).map (fun s => (s.1, s.2.getD byteindex 0))) 0)

/-- An `Option`-valued map whose steps all succeed equals the pure map. -/
theorem mapM_option_eq_map {α β : Type} (f : α → Option β) (g : α → β) :
    ∀ l : List α, (∀ a ∈ l, f a = some (g a)) → l.mapM f = some (l.map g) := by
  intro l
  induction l with
  | nil => intro _; rfl
  | cons a l ih =>
    intro h
    rw [List.mapM_cons, h a (List.mem_cons_self a l),
      ih (fun a' ha' => h a' (List.mem_cons_of_mem a ha'))]
    rfl

/-- Claim C1 (round-trip), general form: decoding any K distinct shares out of
`secret_share`'s N reproduces the secret. -/
theorem secret_share_reconstruct
    (s : List Nat) (hs : ∀ b ∈ s, b < 256)
    (k n : Nat) (hk : 1 ≤ k) (hkn : k ≤ n) (hn : n ≤ 255)
    (rand : Nat → List Nat)
    (hrand_len : ∀ c, (rand c).length = k - 1)
    (hrand : ∀ c, ∀ b ∈ rand c, b < 256)
    (sel : List Nat) (hsel_nodup : sel.Nodup)
    (hsel : ∀ x ∈ sel, 1 ≤ x ∧ x ≤ n) (hsel_len : sel.length = k) :
    reconstruct k (sel.map (fun x => (x, (secret_share s k n rand).getD (x - 1) [])))
      = some s := by
  set shares := sel.map (fun x => (x, (secret_share s k n rand).getD (x - 1) []))
    with hshares
  have hsh_len : shares.length = k := by rw [hshares, List.length_map, hsel_len]
  have hsel_ne : sel ≠ [] := by
    intro hcon
    rw [hcon] at hsel_len
    simp at hsel_len
    omega
  have hrow_len : ∀ x ∈ sel, ((secret_share s k n rand).getD (x - 1) []).length
      = s.length := by
    intro x hx
    exact secret_share_row_length (by have := hsel x hx; omega)
  have hslen : (shares.headD (0, [])).2.length = s.length := by
    cases hsel' : sel with
    | nil => exact absurd hsel' hsel_ne
    | cons x0 tl =>
      rw [hshares, hsel']
      simp only [List.map_cons, List.headD_cons]
      exact hrow_len x0 (by rw [hsel']; exact List.mem_cons_self _ _)
  have htake : shares.take k = shares := by
    rw [← hsh_len]
    exact List.take_length shares
  rw [reconstruct, hslen, htake]
  have hinner : ∀ c ∈ List.range s.length,
      lagrange_interpolate (shares.map (fun sh => (sh.1, sh.2.getD c 0))) 0
        = some (s.getD c 0) := by
    intro c hc
    have hc' : c < s.length := List.mem_range.mp hc
    have hmapeq : shares.map (fun sh => (sh.1, sh.2.getD c 0))
        = sel.map (fun x => (x, encodeAt (s.getD c 0 :: rand c) x)) := by
      rw [hshares, List.map_map]
      refine List.map_congr_left ?_
      intro x hx
      obtain ⟨hx1, hxn⟩ := hsel x hx
      have hentry := @secret_share_entry s k n rand (x - 1) c (by omega) hc'
      simp only [Function.comp]
      rw [hentry]
      congr 2
      omega
    rw [hmapeq]
    have hcoeffs : ∀ b ∈ s.getD c 0 :: rand c, b < 256 := by
      intro b hb
      rcases List.mem_cons.mp hb with h | h
      · subst h
        rw [List.getD_eq_getElem?_getD, List.getElem?_eq_getElem hc']
        exact hs _ (List.getElem_mem hc')
      · exact hrand c b h
    have hxsb : ∀ x ∈ sel, x < 256 := fun x hx => by have := hsel x hx; omega
    have hlen2 : sel.length = (s.getD c 0 :: rand c).length := by
      rw [List.length_cons, hrand_len c, hsel_len]
      omega
    have := lagrange_recovers hcoeffs hxsb hsel_nodup hlen2
    rw [this]
    rfl
  rw [mapM_option_eq_map _ (fun c => s.getD c 0) _ hinner]
  congr 1
  apply List.ext_getElem
  · rw [List.length_map, List.length_range]
  · intro i h1 h2
    rw [List.getElem_map, List.getElem_range,
      List.getD_eq_getElem?_getD, List.getElem?_eq_getElem h2]
    rfl

/-- Powers in GF(2^8). -/
def gfPow (a : Nat) : Nat → Nat
  | 0 => 1
  | i + 1 => gfMul a (gfPow a i)

/-- The spec's formula for a share byte: y = Σ_{i=0..K−1} col_in[i] · x^i,
all arithmetic in GF(2^8). -/
def powerSum (coeffs : List Nat) (x : Nat) : Nat :=
  coeffs.enum.foldl (fun acc p => acc ^^^ gfMul p.2 (gfPow x p.1)) 0

theorem gfPow_lt {x : Nat} (hx : x < 256) : ∀ i, gfPow x i < 256 := by
  intro i
  induction i with
  | zero => simp [gfPow]
  | succ i ih => exact gfMul_lt _ hx

theorem from_byte_gfPow {x : Nat} (hx : x < 256) :
    ∀ i, from_byte (gfPow x i) = (from_byte x) ^ i := by
  intro i
  induction i with
  | zero => simp [gfPow, from_byte_one]
  | succ i ih =>
    show from_byte (gfMul x (gfPow x i)) = from_byte x ^ (i + 1)
    rw [from_byte_mul hx (gfPow_lt hx i), ih, pow_succ]
    ring

theorem powerSum_lt (coeffs : List Nat) (x : Nat) (hc : ∀ b ∈ coeffs, b < 256) :
    powerSum coeffs x < 256 := by
  suffices h : ∀ (l : List (Nat × Nat)) (init : Nat), init < 256 →
      (∀ p ∈ l, p.2 < 256) →
      (l.foldl (fun acc p => acc ^^^ gfMul p.2 (gfPow x p.1)) init) < 256 by
    exact h coeffs.enum 0 (by omega) (fun p hp => hc p.2 (enum_snd_mem hp))
  intro l
  induction l with
  | nil => intro init hinit _; exact hinit
  | cons p l ih =>
    intro init hinit hmem
    simp only [List.foldl_cons]
    exact ih _ (xor_lt_256 hinit (gfMul_lt _ (hmem p (List.mem_cons_self p l))))
      (fun q hq => hmem q (List.mem_cons_of_mem p hq))

theorem listPoly_eval_sum (X : Gf256) :
    ∀ l : List Nat, Polynomial.eval X (listPoly l)
      = ∑ j : Fin l.length, from_byte (l.get j) * X ^ j.val := by
  intro l
  induction l with
  | nil => simp [listPoly]
  | cons c cs ih =>
    have hcons : Polynomial.eval X (listPoly (c :: cs))
        = from_byte c + X * Polynomial.eval X (listPoly cs) := by
      simp [listPoly]
    rw [hcons, ih]
    simp only [List.length_cons]
    rw [Fin.sum_univ_succ]
    simp only [List.get_cons_zero, Fin.val_zero, pow_zero, mul_one,
      List.get_cons_succ, Fin.val_succ]
    rw [Finset.mul_sum]
    congr 1
    refine Finset.sum_congr rfl ?_
    intro j _
    rw [pow_succ]
    have hget : (c :: cs).get j.succ = cs.get j := rfl
    rw [hget]
    ring

theorem from_byte_powerSum {coeffs : List Nat} {x : Nat}
    (hc : ∀ b ∈ coeffs, b < 256) (hx : x < 256) :
    from_byte (powerSum coeffs x)
      = Polynomial.eval (from_byte x) (listPoly coeffs) := by
  have hlift : ∀ (l : List (Nat × Nat)) (init : Nat), init < 256 →
      (∀ p ∈ l, p.2 < 256) →
      from_byte (l.foldl (fun acc p => acc ^^^ gfMul p.2 (gfPow x p.1)) init)
        = from_byte init
          + (l.map (fun p => from_byte p.2 * (from_byte x) ^ p.1)).sum := by
    intro l
    induction l with
    | nil => intro init hinit _; simp
    | cons p l ih =>
      intro init hinit hmem
      have hp2 : p.2 < 256 := hmem p (List.mem_cons_self p l)
      simp only [List.foldl_cons, List.map_cons, List.sum_cons]
      rw [ih _ (xor_lt_256 hinit (gfMul_lt _ hp2))
          (fun q hq => hmem q (List.mem_cons_of_mem p hq)),
        from_byte_add hinit (gfMul_lt _ hp2), from_byte_mul hp2 (gfPow_lt hx p.1),
        from_byte_gfPow hx]
      ring
  rw [powerSum, hlift coeffs.enum 0 (by omega) (fun p hp => hc p.2 (enum_snd_mem hp)),
    from_byte_zero,
    enum_map_eq_ofFn coeffs (fun p => from_byte p.2 * (from_byte x) ^ p.1),
    List.sum_ofFn, listPoly_eval_sum]
  simp

/-- The encode loop agrees with the spec's Σ coeff·x^i formula. -/
theorem encodeAt_eq_powerSum {coeffs : List Nat} {x : Nat}
    (hc : ∀ b ∈ coeffs, b < 256) (hx : x < 256) :
    encodeAt coeffs x = powerSum coeffs x :=
  from_byte_inj (encodeAt_lt coeffs x) (powerSum_lt coeffs x hc)
    ((encodeAt_eval hc hx).trans (from_byte_powerSum hc hx).symm)

theorem getD_mem_pair {l : List (Nat × Nat)} {i : Nat} (h : i < l.length) :
    l.getD i (0, 0) ∈ l := by
  rw [List.getD_eq_getElem?_getD, List.getElem?_eq_getElem h]
  exact List.getElem_mem h

theorem range_map_getD {m i : Nat} {f : Nat → Nat} (h : i < m) :
    ((List.range m).map f).getD i 0 = f i := by
  rw [List.getD_eq_getElem?_getD,
    List.getElem?_eq_getElem (by rw [List.length_map, List.length_range]; exact h)]
  simp

theorem getD_cons_succ {a : Nat} {l : List Nat} {i d : Nat} :
    (a :: l).getD (i + 1) d = l.getD i d := by
  rw [List.getD_eq_getElem?_getD, List.getD_eq_getElem?_getD, List.getElem?_cons_succ]

/-- Claim C2: with K-1 observed shares of one byte column (distinct nonzero
x's) and any candidate secret byte v, exactly one tuple of K-1 random
coefficients is consistent with the observations. -/
theorem coefficient_consistency_unique
    (k : Nat) (hk : 1 ≤ k) (hk255 : k ≤ 255)
    (pts : List (Nat × Nat)) (hpts_len : pts.length = k - 1)
    (hnodup : (pts.map Prod.fst).Nodup)
    (hpts : ∀ p ∈ pts, 1 ≤ p.1 ∧ p.1 ≤ 255 ∧ p.2 < 256)
    (v : Nat) (hv : v < 256) :
    ∃! cs : {l : List Nat // l.length = k - 1 ∧ ∀ b ∈ l, b < 256},
      ∀ p ∈ pts, encodeAt (v :: cs.val) p.1 = p.2 := by
  classical
  set w : Fin k → Gf256 := fun j =>
    if j.val = 0 then 0 else from_byte (pts.getD (j.val - 1) (0, 0)).1 with hw
  set r : Fin k → Gf256 := fun j =>
    if j.val = 0 then from_byte v else from_byte (pts.getD (j.val - 1) (0, 0)).2 with hr
  have hidx_lt : ∀ j : Fin k, j.val ≠ 0 → j.val - 1 < pts.length := by
    intro j hj
    have := j.isLt
    omega
  have hinj : Set.InjOn w (↑(Finset.univ : Finset (Fin k))) := by
    intro j _ j' _ heq
    by_cases h0 : j.val = 0 <;> by_cases h0' : j'.val = 0
    · exact Fin.ext (by omega)
    · exfalso
      rw [hw] at heq
      simp only [if_pos h0, if_neg h0'] at heq
      have hm := hpts _ (getD_mem_pair (hidx_lt j' h0'))
      exact absurd ((from_byte_eq_zero (by omega)).mp heq.symm) (by omega)
    · exfalso
      rw [hw] at heq
      simp only [if_neg h0, if_pos h0'] at heq
      have hm := hpts _ (getD_mem_pair (hidx_lt j h0))
      exact absurd ((from_byte_eq_zero (by omega)).mp heq) (by omega)
    · rw [hw] at heq
      simp only [if_neg h0, if_neg h0'] at heq
      have hm := hpts _ (getD_mem_pair (hidx_lt j h0))
      have hm' := hpts _ (getD_mem_pair (hidx_lt j' h0'))
      have hxeq := from_byte_inj (by omega) (by omega) heq
      have hlenm : (pts.map Prod.fst).length = pts.length := List.length_map _ _
      have hgeteq : (pts.map Prod.fst).get ⟨j.val - 1, by omega⟩
          = (pts.map Prod.fst).get ⟨j'.val - 1, by omega⟩ := by
        simp only [List.get_eq_getElem, List.getElem_map]
        rw [List.getD_eq_getElem?_getD, List.getElem?_eq_getElem (hidx_lt j h0)] at hxeq
        rw [List.getD_eq_getElem?_getD, List.getElem?_eq_getElem (hidx_lt j' h0')] at hxeq
        exact hxeq
      have := List.nodup_iff_injective_get.mp hnodup hgeteq
      have hvals : j.val - 1 = j'.val - 1 := by simpa using this
      exact Fin.ext (by omega)
  have hcard : (Finset.univ : Finset (Fin k)).card = k := by
    rw [Finset.card_univ, Fintype.card_fin]
  have evalAt : ∀ (l : List Nat), (∀ b ∈ l, b < 256) →
      (∀ p ∈ pts, encodeAt (v :: l) p.1 = p.2) →
      ∀ j : Fin k, Polynomial.eval (w j) (listPoly (v :: l)) = r j := by
    intro l hlb hsat j
    have hvl : ∀ b ∈ v :: l, b < 256 := by
      intro b hb
      rcases List.mem_cons.mp hb with h | h
      · omega
      · exact hlb b h
    by_cases h0 : j.val = 0
    · rw [hw, hr]
      simp only [if_pos h0]
      exact listPoly_eval_zero v l
    · have hm := hpts _ (getD_mem_pair (hidx_lt j h0))
      rw [hw, hr]
      simp only [if_neg h0]
      rw [← encodeAt_eval hvl (by omega)]
      congr 1
      exact hsat _ (getD_mem_pair (hidx_lt j h0))
  have key : ∀ (l1 l2 : List Nat),
      l1.length = k - 1 → l2.length = k - 1 →
      (∀ b ∈ l1, b < 256) → (∀ b ∈ l2, b < 256) →
      (∀ p ∈ pts, encodeAt (v :: l1) p.1 = p.2) →
      (∀ p ∈ pts, encodeAt (v :: l2) p.1 = p.2) → l1 = l2 := by
    intro l1 l2 hl1 hl2 hb1 hb2 hs1 hs2
    have hdeg1 : (listPoly (v :: l1)).degree
        < ((Finset.univ : Finset (Fin k)).card : WithBot Nat) := by
      rw [hcard]
      have := listPoly_degree_lt (v :: l1)
      rw [List.length_cons, hl1] at this
      have hkk : k - 1 + 1 = k := by omega
      rwa [hkk] at this
    have hdeg2 : (listPoly (v :: l2)).degree
        < ((Finset.univ : Finset (Fin k)).card : WithBot Nat) := by
      rw [hcard]
      have := listPoly_degree_lt (v :: l2)
      rw [List.length_cons, hl2] at this
      have hkk : k - 1 + 1 = k := by omega
      rwa [hkk] at this
    have heq : listPoly (v :: l1) = listPoly (v :: l2) := by
      refine Polynomial.eq_of_degrees_lt_of_eval_index_eq
        (Finset.univ : Finset (Fin k)) hinj hdeg1 hdeg2 ?_
      intro j _
      rw [evalAt l1 hb1 hs1 j, evalAt l2 hb2 hs2 j]
    apply List.ext_getElem (by omega)
    intro i h1 h2
    have hco := congrArg (fun q => Polynomial.coeff q (i + 1)) heq
    simp only [listPoly_coeff] at hco
    rw [getD_cons_succ, getD_cons_succ] at hco
    have hm1 : l1.getD i 0 < 256 := by
      rw [List.getD_eq_getElem?_getD, List.getElem?_eq_getElem h1]
      exact hb1 _ (List.getElem_mem h1)
    have hm2 : l2.getD i 0 < 256 := by
      rw [List.getD_eq_getElem?_getD, List.getElem?_eq_getElem h2]
      exact hb2 _ (List.getElem_mem h2)
    have := from_byte_inj hm1 hm2 hco
    rw [List.getD_eq_getElem?_getD, List.getElem?_eq_getElem h1,
      List.getD_eq_getElem?_getD, List.getElem?_eq_getElem h2] at this
    exact this
  -- existence: interpolate through (0, v) and the observed points
  set q : Polynomial Gf256 := Lagrange.interpolate Finset.univ w r with hq
  have hqdeg : q.degree < ((Finset.univ : Finset (Fin k)).card : WithBot Nat) :=
    Lagrange.degree_interpolate_lt r hinj
  set cs : List Nat := (List.range (k - 1)).map (fun i => to_byte (q.coeff (i + 1)))
    with hcs
  have hcs_len : cs.length = k - 1 := by
    rw [hcs, List.length_map, List.length_range]
  have hcs_b : ∀ b ∈ cs, b < 256 := by
    intro b hb
    rw [hcs] at hb
    obtain ⟨i, _, rfl⟩ := List.mem_map.mp hb
    exact to_byte_lt _
  have hj0 : (0 : Nat) < k := by omega
  have hlp : listPoly (v :: cs) = q := by
    apply Polynomial.ext
    intro i
    rw [listPoly_coeff]
    match i with
    | 0 =>
      show from_byte v = q.coeff 0
      rw [Polynomial.coeff_zero_eq_eval_zero]
      have hnode := Lagrange.eval_interpolate_at_node r hinj
        (Finset.mem_univ (⟨0, hj0⟩ : Fin k))
      rw [← hq] at hnode
      have hw0 : w ⟨0, hj0⟩ = 0 := by simp [hw]
      have hr0 : r ⟨0, hj0⟩ = from_byte v := by simp [hr]
      rw [hw0] at hnode
      rw [hnode, hr0]
    | i + 1 =>
      by_cases hik : i < k - 1
      · rw [getD_cons_succ, hcs, range_map_getD hik, from_byte_to_byte]
      · rw [getD_cons_succ]
        have hout : cs.getD i 0 = 0 := by
          rw [List.getD_eq_getElem?_getD, List.getElem?_eq_none (by omega)]
          rfl
        rw [hout, from_byte_zero]
        refine (Polynomial.coeff_eq_zero_of_degree_lt ?_).symm
        refine lt_of_lt_of_le hqdeg ?_
        rw [hcard]
        exact_mod_cast (by omega : k ≤ i + 1)
  refine ⟨⟨cs, hcs_len, hcs_b⟩, ?_, ?_⟩
  · intro p hp
    obtain ⟨idx, hidx, hpe⟩ := List.getElem_of_mem hp
    have hj : idx + 1 < k := by omega
    have hwj : w ⟨idx + 1, hj⟩ = from_byte p.1 := by
      rw [hw]
      simp only [if_neg (Nat.succ_ne_zero idx)]
      rw [show idx + 1 - 1 = idx from rfl, List.getD_eq_getElem?_getD,
        List.getElem?_eq_getElem hidx, hpe]
      rfl
    have hrj : r ⟨idx + 1, hj⟩ = from_byte p.2 := by
      rw [hr]
      simp only [if_neg (Nat.succ_ne_zero idx)]
      rw [show idx + 1 - 1 = idx from rfl, List.getD_eq_getElem?_getD,
        List.getElem?_eq_getElem hidx, hpe]
      rfl
    have hm := hpts p hp
    have hvcs : ∀ b ∈ v :: cs, b < 256 := by
      intro b hb
      rcases List.mem_cons.mp hb with h | h
      · omega
      · exact hcs_b b h
    refine from_byte_inj (encodeAt_lt _ _) (by omega) ?_
    rw [encodeAt_eval hvcs (by omega), hlp, ← hwj]
    have hnode := Lagrange.eval_interpolate_at_node r hinj
      (Finset.mem_univ (⟨idx + 1, hj⟩ : Fin k))
    rw [← hq] at hnode
    rw [hnode, hrj]
  · intro cs' hsat'
    have hsat : ∀ p ∈ pts, encodeAt (v :: cs) p.1 = p.2 := by
      intro p hp
      obtain ⟨idx, hidx, hpe⟩ := List.getElem_of_mem hp
      have hj : idx + 1 < k := by omega
      have hwj : w ⟨idx + 1, hj⟩ = from_byte p.1 := by
        rw [hw]
        simp only [if_neg (Nat.succ_ne_zero idx)]
        rw [show idx + 1 - 1 = idx from rfl, List.getD_eq_getElem?_getD,
          List.getElem?_eq_getElem hidx, hpe]
        rfl
      have hrj : r ⟨idx + 1, hj⟩ = from_byte p.2 := by
        rw [hr]
        simp only [if_neg (Nat.succ_ne_zero idx)]
        rw [show idx + 1 - 1 = idx from rfl, List.getD_eq_getElem?_getD,
          List.getElem?_eq_getElem hidx, hpe]
        rfl
      have hm := hpts p hp
      have hvcs : ∀ b ∈ v :: cs, b < 256 := by
        intro b hb
        rcases List.mem_cons.mp hb with h | h
        · omega
        · exact hcs_b b h
      refine from_byte_inj (encodeAt_lt _ _) (by omega) ?_
      rw [encodeAt_eval hvcs (by omega), hlp, ← hwj]
      have hnode := Lagrange.eval_interpolate_at_node r hinj
        (Finset.mem_univ (⟨idx + 1, hj⟩ : Fin k))
      rw [← hq] at hnode
      rw [hnode, hrj]
    refine Subtype.ext ?_
    exact key cs'.val cs cs'.2.1 hcs_len cs'.2.2 hcs_b hsat' hsat

/-- Rust's `str::trim` on a line (lines are ASCII here): strip leading and
trailing whitespace. -/
def trim (l : List Char) : List Char :=
  ((l.dropWhile Char.isWhitespace).reverse.dropWhile Char.isWhitespace).reverse

/-- Rust's `u8::from_str`: an optional '+' sign, then one or more digits,
value at most 255 (larger values overflow and are rejected, not wrapped). -/
def parse_u8 (s : List Char) : Option Nat :=
  let digits := match s with
    | '+' :: rest => rest
    | _ => s
  if digits.isEmpty then none
  else if digits.all Char.isDigit then
    let v := digits.foldl (fun acc c => acc * 10 + (c.toNat - 48)) 0
    if v ≤ 255 then some v else none
  else none

/-- Modelled from the spec: the standard base64 alphabet. -/
def b64Char (i : Nat) : Char :=
  if i < 26 then Char.ofNat (65 + i)
  else if i < 52 then Char.ofNat (97 + (i - 26))
  else if i < 62 then Char.ofNat (48 + (i - 52))
  else if i = 62 then '+' else '/'

/-- Modelled from the spec: index of a standard-alphabet base64 character. -/
def b64Index (c : Char) : Option Nat :=
  if 'A' ≤ c ∧ c ≤ 'Z' then some (c.toNat - 65)
  else if 'a' ≤ c ∧ c ≤ 'z' then some (c.toNat - 97 + 26)
  else if '0' ≤ c ∧ c ≤ '9' then some (c.toNat - 48 + 52)
  else if c = '+' then some 62
  else if c = '/' then some 63
  else none

/-- Modelled from the spec: `to_base64` with `pad: false` (standard alphabet,
no '=' padding), as the source's `share.to_base64(config)`. -/
def toBase64 : List Nat → List Char
  | [] => []
  | [b1] => [b64Char (b1 / 4), b64Char (b1 % 4 * 16)]
  | [b1, b2] =>
    [b64Char (b1 / 4), b64Char (b1 % 4 * 16 + b2 / 16), b64Char (b2 % 16 * 4)]
  | b1 :: b2 :: b3 :: rest =>
    b64Char (b1 / 4) :: b64Char (b1 % 4 * 16 + b2 / 16) ::
      b64Char (b2 % 16 * 4 + b3 / 64) :: b64Char (b3 % 64) :: toBase64 rest

/-- Modelled from the spec: `from_base64` for unpadded standard base64: a
lone trailing character is malformed, any character outside the alphabet is
rejected, bytes are reassembled 3 per 4 characters. -/
def fromBase64 : List Char → Option (List Nat)
  | [] => some []
  | [_] => none
  | [c1, c2] => do
    let i1 ← b64Index c1
    let i2 ← b64Index c2
    some [i1 * 4 + i2 / 16]
  | [c1, c2, c3] => do
    let i1 ← b64Index c1
    let i2 ← b64Index c2
    let i3 ← b64Index c3
    some [i1 * 4 + i2 / 16, i2 % 16 * 16 + i3 / 4]
  | c1 :: c2 :: c3 :: c4 :: rest => do
    let i1 ← b64Index c1
    let i2 ← b64Index c2
    let i3 ← b64Index c3
    let i4 ← b64Index c4
    let tail ← fromBase64 rest
    some ((i1 * 4 + i2 / 16) :: (i2 % 16 * 16 + i3 / 4) :: (i3 % 4 * 64 + i4) :: tail)

/-- Modelled from the spec: one shift step of the OpenPGP CRC-24 (polynomial
0x1864CFB, no reflection). -/
def crc24_step (crc : Nat) : Nat :=
  let c := crc <<< 1
  if c &&& 0x1000000 ≠ 0 then c ^^^ 0x1864CFB else c

def crc24_steps : Nat → Nat → Nat
  | 0, crc => crc
  | n + 1, crc => crc24_steps n (crc24_step crc)

/-- Modelled from the spec: absorb one byte into the CRC-24 state. -/
def crc24_update (crc b : Nat) : Nat := crc24_steps 8 (crc ^^^ (b <<< 16))

/-- Modelled from the spec: the OpenPGP CRC-24 (initial value 0xB704CE) of a
byte stream, as computed by the `crc24` crate's `Crc24Hasher`. -/
def crc24 (bytes : List Nat) : Nat := bytes.foldl crc24_update 0xB704CE

/-- `crc24_as_bytes` of main.rs (lines 159-170): CRC-24 over the bytes `k`,
`n` followed by the share data, written big-endian as 3 bytes. -/
def crc24_as_bytes (k n : Nat) (octets : List Nat) : List Nat :=
  let v := crc24 (k :: n :: octets)
  [(v >>> 16) &&& 0xFF, (v >>> 8) &&& 0xFF, v &&& 0xFF]

/-- Decimal formatting of `println!("{}")` for the K and x fields. -/
def decRepr (n : Nat) : List Char := Nat.toDigits 10 n

/-- The line `perform_encode` (main.rs lines 193-201) prints for share index
`x` (1-based): `K-x-base64(data)` with `-base64(crc)` appended when checksums
are on. -/
def format_share_line (k x : Nat) (data : List Nat) (with_checksums : Bool) :
    List Char :=
  if with_checksums then
    decRepr k ++ '-' :: decRepr x ++ '-' :: toBase64 data
      ++ '-' :: toBase64 (crc24_as_bytes k x data)
  else
    decRepr k ++ '-' :: decRepr x ++ '-' :: toBase64 data

/-- The error kinds of the decode path, tagged per the spec's error table
(the source carries them as `io::Error` description strings). -/
inductive ShareError where
  | expectedParts
  | intParse
  | illegalKN
  | base64Data
  | checksumLen
  | base64Checksum
  | checksumMismatch
  | incompatible
  | notEnough
  | secretTooLarge
deriving DecidableEq

/-- The spec's ShareParseError kind: wrong segment count, non-numeric K/x,
illegal K or x, invalid base64, wrong checksum segment length. -/
def ShareError.isShareParse : ShareError → Bool
  | .expectedParts => true
  | .intParse => true
  | .illegalKN => true
  | .base64Data => true
  | .checksumLen => true
  | .base64Checksum => true
  | _ => false

/-- Per-line validation of `read_shares` (main.rs lines 216-249): trim, split
on '-', 3 or 4 segments, parse K and x as u8, range-check them, base64-decode
the data, and check the optional 4-character checksum segment. -/
def parse_share_line (line : List Char) : Except ShareError (Nat × Nat × List Nat) :=
  let parts := (trim line).splitOn '-'
  if parts.length < 3 ∨ parts.length > 4 then .error .expectedParts
  else
    match parse_u8 (parts.getD 0 []) with
    | none => .error .intParse
    | some k =>
      match parse_u8 (parts.getD 1 []) with
      | none => .error .intParse
      | some n =>
        if k < 1 ∨ n < 1 then .error .illegalKN
        else
          match fromBase64 (parts.getD 2 []) with
          | none => .error .base64Data
          | some data =>
            match parts[3]? with
            | none => .ok (k, n, data)
            | some check =>
              if check.length ≠ 4 then .error .checksumLen
              else
                match fromBase64 check with
                | none => .error .base64Checksum
                | some crc_bytes =>
                  if crc_bytes ≠ crc24_as_bytes k n data then
                    .error .checksumMismatch
                  else .ok (k, n, data)

/-- The accumulation loop of `read_shares` (main.rs lines 214-265): state is
the first accepted line's (K, data length), the accept counter and the
accepted shares; duplicate x values are skipped; K accepted shares return
`Ok` without consuming further lines; end of input is NotEnoughShares. -/
def read_shares_loop (opt_k_l : Option (Nat × Nat)) (counter : Nat)
    (shares : List (Nat × List Nat)) :
    List (List Char) → Except ShareError (Nat × List (Nat × List Nat))
  | [] => .error .notEnough
  | line :: rest =>
    match parse_share_line line with
    | .error e => .error e
    | .ok (k, n, data) =>
      match opt_k_l with
      | some (ck, cl) =>
        if ck ≠ k ∨ cl ≠ data.length then .error .incompatible
        else
          if shares.all (fun s => s.1 != n) then
            if counter + 1 = k then .ok (k, shares ++ [(n, data)])
            else read_shares_loop (some (ck, cl)) (counter + 1)
              (shares ++ [(n, data)]) rest
          else read_shares_loop (some (ck, cl)) counter shares rest
      | none =>
        if shares.all (fun s => s.1 != n) then
          if counter + 1 = k then .ok (k, shares ++ [(n, data)])
          else read_shares_loop (some (k, data.length)) (counter + 1)
            (shares ++ [(n, data)]) rest
        else read_shares_loop (some (k, data.length)) counter shares rest

/-- `read_shares` of main.rs (lines 208-266), over the input's lines. -/
def read_shares (lines : List (List Char)) :
    Except ShareError (Nat × List (Nat × List Nat)) :=
  read_shares_loop none 0 [] lines

/-- `perform_encode` of main.rs (lines 172-203): read at most 65536 bytes,
fail with SecretTooLarge when more input remains, otherwise share the secret
and emit one formatted line per share (ascending x). -/
def perform_encode (k n : Nat) (with_checksums : Bool) (input : List Nat)
    (rand : Nat → List Nat) : Except ShareError (List (List Char)) :=
  let tmp := input.take 0x10000
  if tmp.length = 0x10000 ∧ input.drop 0x10000 ≠ [] then .error .secretTooLarge
  else
    let shares := secret_share tmp k n rand
    .ok (shares.enum.map (fun p => format_share_line k (p.1 + 1) p.2 with_checksums))

deriving instance DecidableEq for Except

/-- A whitespace-only (or empty) line makes `parse_share_line` fail with the
expected-parts error: trimming leaves nothing and the split has one segment. -/
theorem parse_share_line_empty (line : List Char) (h : trim line = []) :
    parse_share_line line = .error .expectedParts := by
  unfold parse_share_line
  rw [h]
  rfl

/-- Claim C3 (amended): an empty or whitespace-only input line reached during
decode accumulation is not skipped: it causes the decode to fail with a
share-parse error ("Expected 3 or 4 parts"). -/
theorem empty_line_share_parse_error (line : List Char) (h : trim line = [])
    (opt : Option (Nat × Nat)) (counter : Nat) (shares : List (Nat × List Nat))
    (rest : List (List Char)) :
    read_shares_loop opt counter shares (line :: rest) = .error .expectedParts := by
  have hp := parse_share_line_empty line h
  cases opt with
  | none => simp only [read_shares_loop, hp]
  | some kl => simp only [read_shares_loop, hp]

/-- Witness for C3's amended claim at a concrete whitespace-only line. -/
theorem empty_line_share_parse_error_witness :
    trim [' '] = ([] : List Char) ∧
      read_shares_loop none 0 [] [[' '], ['1', '-', '1', '-']]
        = .error .expectedParts :=
  ⟨by decide, empty_line_share_parse_error [' '] (by decide) none 0 [] _⟩

/-- Counterexample to C3 as stated: the code does not skip empty lines.  An
empty line followed by a complete K=1 share makes decode fail, while the same
input without the empty line decodes fine. -/
theorem empty_line_not_skipped_cex :
    read_shares [[], ['1', '-', '1', '-']] = .error .expectedParts ∧
      read_shares [['1', '-', '1', '-']] = .ok (1, [(1, [])]) := by
  constructor
  · rfl
  · rfl

/-- Claim C4 (amended): a decode line that passes per-line validation and the
compatibility check but whose x value duplicates an already-accepted share is
silently ignored: the accumulator state is unchanged, no error is raised, and
accumulation continues with the rest of the input. -/
theorem duplicate_x_line_ignored (line : List Char) (k n : Nat) (data : List Nat)
    (ck cl counter : Nat) (shares : List (Nat × List Nat)) (rest : List (List Char))
    (hparse : parse_share_line line = .ok (k, n, data))
    (hck : ck = k) (hcl : cl = data.length)
    (hdup : shares.all (fun s => s.1 != n) = false) :
    read_shares_loop (some (ck, cl)) counter shares (line :: rest)
      = read_shares_loop (some (ck, cl)) counter shares rest := by
  simp only [read_shares_loop, hparse]
  rw [if_neg (show ¬(ck ≠ k ∨ cl ≠ data.length) by omega), hdup]
  simp

/-- Witness for C4's amended claim: a well-formed duplicate of the first share
is dropped and decoding continues. -/
theorem duplicate_x_line_ignored_witness :
    parse_share_line ['2', '-', '1', '-'] = .ok (2, 1, []) ∧
      ([((1 : Nat), ([] : List Nat))].all (fun s => s.1 != 1) = false) ∧
      read_shares_loop (some (2, 0)) 1 [(1, [])]
          [['2', '-', '1', '-'], ['2', '-', '2', '-']]
        = read_shares_loop (some (2, 0)) 1 [(1, [])] [['2', '-', '2', '-']] :=
  ⟨by decide, by decide,
    duplicate_x_line_ignored ['2', '-', '1', '-'] 2 1 [] 2 0 1 [(1, [])]
      [['2', '-', '2', '-']] (by decide) (by decide) (by decide) (by decide)⟩

/-- Counterexample to C4 as stated: a duplicate-x line is only silently
ignored when it also passes validation and the compatibility check.  Here the
second line duplicates x=1 but carries a payload of different length, and the
decode errors out with IncompatibleShares instead of ignoring the line (under
the claim the decode would succeed on shares x=1 and x=2). -/
theorem duplicate_x_line_error_cex :
    read_shares [['2', '-', '1', '-', 'A', 'A'], ['2', '-', '1', '-'],
        ['2', '-', '2', '-', 'A', 'B']]
      = .error .incompatible ∧
    read_shares [['2', '-', '1', '-', 'A', 'A'], ['2', '-', '2', '-', 'A', 'B']]
      = .ok (2, [(1, [0]), (2, [0])]) := by
  constructor
  · decide
  · decide

/-- Claim C10: with pairwise-distinct x coordinates the interpolation loop
never fires the duplicate-shares assertion and performs no division by zero:
it terminates normally with a value. -/
theorem lagrange_interpolate_no_panic (src : List (Nat × Nat)) (x : Nat)
    (hnodup : (src.map Prod.fst).Nodup) :
    ∃ v, lagrange_interpolate src x = some v :=
  ⟨lagrange_pure src x, lagrange_interpolate_total x hnodup⟩

/-- Witness for C10 at three concrete distinct-x points. -/
theorem lagrange_interpolate_no_panic_witness :
    ([(1, 5), (2, 7), (3, 11)].map (Prod.fst (β := Nat))).Nodup ∧
      ∃ v, lagrange_interpolate [(1, 5), (2, 7), (3, 11)] 0 = some v :=
  ⟨by decide, lagrange_interpolate_no_panic [(1, 5), (2, 7), (3, 11)] 0 (by decide)⟩

/-- Claim C9: the encode flow succeeds on an input of exactly 65536 bytes and
fails with SecretTooLarge whenever the input is longer. -/
theorem perform_encode_limit (k n : Nat) (wc : Bool) (input : List Nat)
    (rand : Nat → List Nat) :
    (input.length = 65536 → ∃ out, perform_encode k n wc input rand = .ok out) ∧
    (65536 < input.length → perform_encode k n wc input rand
      = .error .secretTooLarge) := by
  constructor
  · intro hlen
    refine ⟨(secret_share (input.take 0x10000) k n rand).enum.map
      (fun p => format_share_line k (p.1 + 1) p.2 wc), ?_⟩
    simp only [perform_encode]
    rw [if_neg (by
      intro hcon
      have hd : input.drop 0x10000 = [] := List.drop_eq_nil_of_le (by omega)
      exact hcon.2 hd)]
  · intro hlen
    simp only [perform_encode]
    rw [if_pos ⟨by rw [List.length_take]; omega, by
      intro hcon
      have := congrArg List.length hcon
      rw [List.length_drop] at this
      simp at this
      omega⟩]

/-- Witness for C9 at the boundary: 65536 bytes succeed, 65537 fail. -/
theorem perform_encode_limit_witness :
    ((List.replicate 65536 0).length = 65536 →
      ∃ out, perform_encode 1 1 true (List.replicate 65536 0) (fun _ => [])
        = .ok out) ∧
    (65536 < (List.replicate 65537 0).length →
      perform_encode 1 1 true (List.replicate 65537 0) (fun _ => [])
        = .error .secretTooLarge) ∧
    (List.replicate 65536 0).length = 65536 ∧
    65536 < (List.replicate 65537 0).length :=
  ⟨(perform_encode_limit 1 1 true (List.replicate 65536 0) (fun _ => [])).1,
    (perform_encode_limit 1 1 true (List.replicate 65537 0) (fun _ => [])).2,
    List.length_replicate 65536 0,
    by rw [List.length_replicate]; omega⟩

/-- Claim C5: the byte at column c of share x (x = j+1, ascending x across
shares, ascending c within a share) is Σ_{i<K} col_in[i]·x^i in GF(2^8), with
col_in = secret[c] followed by column c's random bytes. -/
theorem secret_share_powersum (src : List Nat) (k n : Nat) (rand : Nat → List Nat)
    (hs : ∀ b ∈ src, b < 256) (hn : n ≤ 255) (hn0 : 0 < n)
    (hrand : ∀ c, ∀ b ∈ rand c, b < 256) :
    (secret_share src k n rand).length = n ∧
    ∀ j, j < n →
      ((secret_share src k n rand).getD j []).length = src.length ∧
      ∀ c, c < src.length →
        ((secret_share src k n rand).getD j []).getD c 0
          = powerSum (src.getD c 0 :: rand c) (j + 1) := by
  refine ⟨secret_share_length src k n rand hn0, ?_⟩
  intro j hj
  refine ⟨secret_share_row_length hj, ?_⟩
  intro c hc
  rw [secret_share_entry hj hc]
  refine encodeAt_eq_powerSum ?_ (by omega)
  intro b hb
  rcases List.mem_cons.mp hb with h | h
  · subst h
    rw [List.getD_eq_getElem?_getD, List.getElem?_eq_getElem hc]
    exact hs _ (List.getElem_mem hc)
  · exact hrand c b h

/-- Witness for C5 at a concrete secret, K=2, N=2. -/
theorem secret_share_powersum_witness :
    (∀ b ∈ [1, 2], b < 256) ∧
    ((secret_share [1, 2] 2 2 (fun _ => [3])).length = 2 ∧
      ∀ j, j < 2 →
        ((secret_share [1, 2] 2 2 (fun _ => [3])).getD j []).length
            = ([1, 2] : List Nat).length ∧
        ∀ c, c < ([1, 2] : List Nat).length →
          ((secret_share [1, 2] 2 2 (fun _ => [3])).getD j []).getD c 0
            = powerSum (([1, 2] : List Nat).getD c 0 :: [3]) (j + 1)) :=
  ⟨by decide,
    secret_share_powersum [1, 2] 2 2 (fun _ => [3]) (by decide) (by omega) (by omega)
      (by intro c; show ∀ b ∈ ([3] : List Nat), b < 256; decide)⟩

/-- Witness for C1: secret "hi", K=2, N=3, decoding shares x=1 and x=3. -/
theorem secret_share_reconstruct_witness :
    ([1, 3] : List Nat).Nodup ∧
      reconstruct 2 ([1, 3].map (fun x =>
        (x, (secret_share [104, 105] 2 3 (fun _ => [7])).getD (x - 1) [])))
        = some [104, 105] :=
  ⟨by decide,
    secret_share_reconstruct [104, 105] (by decide) 2 3 (by omega) (by omega)
      (by omega) (fun _ => [7])
      (by intro c; show ([7] : List Nat).length = 2 - 1; decide)
      (by intro c; show ∀ b ∈ ([7] : List Nat), b < 256; decide)
      [1, 3] (by decide) (by decide) (by decide)⟩

/-- Witness for C2: one observed share (K=2) and candidate byte v=5. -/
theorem coefficient_consistency_unique_witness :
    ∃! cs : {l : List Nat // l.length = 2 - 1 ∧ ∀ b ∈ l, b < 256},
      ∀ p ∈ [((1 : Nat), (9 : Nat))], encodeAt (5 :: cs.val) p.1 = p.2 :=
  coefficient_consistency_unique 2 (by omega) (by omega) [(1, 9)] (by decide)
    (by decide) (by decide) 5 (by omega)

/-- Loop analysis for `read_shares`: a successful run has exactly K accepted
shares and is determined by a prefix of the input; anything after that prefix
is never consumed. -/
theorem read_shares_loop_ok :
    ∀ (lines : List (List Char)) (opt : Option (Nat × Nat))
      (sh : List (Nat × List Nat)) (k : Nat) (shs : List (Nat × List Nat)),
      read_shares_loop opt sh.length sh lines = .ok (k, shs) →
      shs.length = k ∧
      ∃ pfx sfx, lines = pfx ++ sfx ∧
        ∀ sfx', read_shares_loop opt sh.length sh (pfx ++ sfx') = .ok (k, shs) := by
  intro lines
  induction lines with
  | nil =>
    intro opt sh k shs h
    simp [read_shares_loop] at h
  | cons line rest ih =>
    intro opt sh k shs h
    cases hp : parse_share_line line with
    | error e =>
      simp only [read_shares_loop, hp] at h
      exact absurd h (by simp)
    | ok v =>
      obtain ⟨k', n, data⟩ := v
      cases opt with
      | some kl =>
        obtain ⟨ck, cl⟩ := kl
        simp only [read_shares_loop, hp] at h
        by_cases hcompat : ck ≠ k' ∨ cl ≠ data.length
        · rw [if_pos hcompat] at h
          exact absurd h (by simp)
        · rw [if_neg hcompat] at h
          by_cases hdup : (sh.all (fun s => s.1 != n)) = true
          · rw [if_pos hdup] at h
            by_cases hcnt : sh.length + 1 = k'
            · rw [if_pos hcnt] at h
              have h2 : ((k', sh ++ [(n, data)]) : Nat × List (Nat × List Nat))
                  = (k, shs) := Except.ok.inj h
              have hk : k' = k := congrArg Prod.fst h2
              have hshs : sh ++ [(n, data)] = shs := congrArg Prod.snd h2
              refine ⟨by rw [← hshs, List.length_append]; simp; omega, ?_⟩
              refine ⟨[line], rest, rfl, ?_⟩
              intro sfx'
              rw [List.cons_append]
              simp only [read_shares_loop, hp]
              rw [if_neg hcompat, if_pos hdup, if_pos hcnt, hk, hshs]
            · rw [if_neg hcnt] at h
              rw [show sh.length + 1 = (sh ++ [(n, data)]).length by simp] at h
              obtain ⟨hlen, pfx, sfx, happ, hall⟩ :=
                ih (some (ck, cl)) (sh ++ [(n, data)]) k shs h
              refine ⟨hlen, line :: pfx, sfx, by rw [happ]; rfl, ?_⟩
              intro sfx'
              rw [List.cons_append]
              simp only [read_shares_loop, hp]
              rw [if_neg hcompat, if_pos hdup, if_neg hcnt,
                show sh.length + 1 = (sh ++ [(n, data)]).length by simp]
              exact hall sfx'
          · rw [if_neg hdup] at h
            obtain ⟨hlen, pfx, sfx, happ, hall⟩ := ih (some (ck, cl)) sh k shs h
            refine ⟨hlen, line :: pfx, sfx, by rw [happ]; rfl, ?_⟩
            intro sfx'
            rw [List.cons_append]
            simp only [read_shares_loop, hp]
            rw [if_neg hcompat, if_neg hdup]
            exact hall sfx'
      | none =>
        simp only [read_shares_loop, hp] at h
        by_cases hdup : (sh.all (fun s => s.1 != n)) = true
        · rw [if_pos hdup] at h
          by_cases hcnt : sh.length + 1 = k'
          · rw [if_pos hcnt] at h
            have h2 : ((k', sh ++ [(n, data)]) : Nat × List (Nat × List Nat))
                = (k, shs) := Except.ok.inj h
            have hk : k' = k := congrArg Prod.fst h2
            have hshs : sh ++ [(n, data)] = shs := congrArg Prod.snd h2
            refine ⟨by rw [← hshs, List.length_append]; simp; omega, ?_⟩
            refine ⟨[line], rest, rfl, ?_⟩
            intro sfx'
            rw [List.cons_append]
            simp only [read_shares_loop, hp]
            rw [if_pos hdup, if_pos hcnt, hk, hshs]
          · rw [if_neg hcnt] at h
            rw [show sh.length + 1 = (sh ++ [(n, data)]).length by simp] at h
            obtain ⟨hlen, pfx, sfx, happ, hall⟩ :=
              ih (some (k', data.length)) (sh ++ [(n, data)]) k shs h
            refine ⟨hlen, line :: pfx, sfx, by rw [happ]; rfl, ?_⟩
            intro sfx'
            rw [List.cons_append]
            simp only [read_shares_loop, hp]
            rw [if_pos hdup, if_neg hcnt,
              show sh.length + 1 = (sh ++ [(n, data)]).length by simp]
            exact hall sfx'
        · rw [if_neg hdup] at h
          obtain ⟨hlen, pfx, sfx, happ, hall⟩ :=
            ih (some (k', data.length)) sh k shs h
          refine ⟨hlen, line :: pfx, sfx, by rw [happ]; rfl, ?_⟩
          intro sfx'
          rw [List.cons_append]
          simp only [read_shares_loop, hp]
          rw [if_neg hdup]
          exact hall sfx'

/-- Claim C7: accumulation succeeds exactly when K distinct-x lines have been
accepted (the returned share list has K entries), consuming no input beyond
the prefix that produced them; an exhausted input yields NotEnoughShares. -/
theorem read_shares_stops_at_k :
    (∀ (opt : Option (Nat × Nat)) (counter : Nat) (sh : List (Nat × List Nat)),
      read_shares_loop opt counter sh [] = .error .notEnough) ∧
    (∀ (lines : List (List Char)) (k : Nat) (shs : List (Nat × List Nat)),
      read_shares lines = .ok (k, shs) →
      shs.length = k ∧
      ∃ pfx sfx, lines = pfx ++ sfx ∧
        ∀ sfx', read_shares (pfx ++ sfx') = .ok (k, shs)) := by
  constructor
  · intro opt counter sh
    rfl
  · intro lines k shs h
    exact read_shares_loop_ok lines none [] k shs h

/-- Witness for C7: one K=1 share followed by junk; the junk is a suffix that
is never consumed, and the result holds exactly one share. -/
theorem read_shares_stops_at_k_witness :
    read_shares_loop none 0 [] [] = .error .notEnough ∧
    (([((1 : Nat), ([] : List Nat))]).length = 1 ∧
      ∃ pfx sfx, [['1', '-', '1', '-'], ['j', 'u', 'n', 'k']] = pfx ++ sfx ∧
        ∀ sfx', read_shares (pfx ++ sfx') = .ok (1, [(1, [])])) :=
  ⟨read_shares_stops_at_k.1 none 0 [],
    read_shares_stops_at_k.2 [['1', '-', '1', '-'], ['j', 'u', 'n', 'k']] 1
      [(1, [])] (by decide)⟩

theorem parse_u8_le {s : List Char} {v : Nat} (h : parse_u8 s = some v) : v ≤ 255 := by
  simp only [parse_u8] at h
  split at h
  · exact absurd h (by simp)
  · split at h
    · split at h
      · have := Option.some.inj h
        omega
      · exact absurd h (by simp)
    · exact absurd h (by simp)

/-- If `parse_share_line` accepts, K and x parsed from the first two segments
and passed the range check. -/
theorem parse_share_line_ok_bounds {line : List Char} {k n : Nat} {data : List Nat}
    (h : parse_share_line line = .ok (k, n, data)) :
    1 ≤ k ∧ k ≤ 255 ∧ 1 ≤ n ∧ n ≤ 255 ∧
      parse_u8 (((trim line).splitOn '-').getD 0 []) = some k ∧
      parse_u8 (((trim line).splitOn '-').getD 1 []) = some n := by
  simp only [parse_share_line] at h
  split at h
  · exact absurd h (by simp)
  · rename_i h34
    split at h
    · exact absurd h (by simp)
    · rename_i k' hk'
      split at h
      · exact absurd h (by simp)
      · rename_i n' hn'
        split at h
        · exact absurd h (by simp)
        · rename_i hkn
          split at h
          · exact absurd h (by simp)
          · rename_i data' hdata'
            have hk255 := parse_u8_le hk'
            have hn255 := parse_u8_le hn'
            split at h
            · have h2 : ((k', n', data') : Nat × Nat × List Nat) = (k, n, data) :=
                Except.ok.inj h
              have e1 : k' = k := congrArg Prod.fst h2
              have e2 : n' = n := congrArg (fun q => q.2.1) h2
              subst e1
              subst e2
              exact ⟨by omega, by omega, by omega, by omega, hk', hn'⟩
            · rename_i chk hchk
              split at h
              · exact absurd h (by simp)
              · split at h
                · exact absurd h (by simp)
                · rename_i crc hcrc
                  split at h
                  · exact absurd h (by simp)
                  · have h2 : ((k', n', data') : Nat × Nat × List Nat) = (k, n, data) :=
                      Except.ok.inj h
                    have e1 : k' = k := congrArg Prod.fst h2
                    have e2 : n' = n := congrArg (fun q => q.2.1) h2
                    subst e1
                    subst e2
                    exact ⟨by omega, by omega, by omega, by omega, hk', hn'⟩

/-- Claim C8: a non-empty decode line draws a share-parse rejection exactly
when it has fewer than 3 or more than 4 '-'-separated segments, its first or
second segment is not an unsigned integer in [1,255] (overflowing values are
rejected by parsing, not wrapped), its third segment is not valid base64, or
a present fourth segment is not exactly 4 characters or not valid base64;
and an accepted line's K and x always lie in [1,255]. -/
theorem parse_share_line_reject_iff (line : List Char) :
    ((∃ e, parse_share_line line = .error e ∧ e.isShareParse = true) ↔
      (((trim line).splitOn '-').length < 3 ∨ 4 < ((trim line).splitOn '-').length ∨
        (∀ v, parse_u8 (((trim line).splitOn '-').getD 0 []) = some v → v = 0) ∨
        (∀ v, parse_u8 (((trim line).splitOn '-').getD 1 []) = some v → v = 0) ∨
        fromBase64 (((trim line).splitOn '-').getD 2 []) = none ∨
        (∃ chk, ((trim line).splitOn '-')[3]? = some chk ∧
          (chk.length ≠ 4 ∨ fromBase64 chk = none)))) ∧
    (∀ k n data, parse_share_line line = .ok (k, n, data) →
      1 ≤ k ∧ k ≤ 255 ∧ 1 ≤ n ∧ n ≤ 255) := by
  refine ⟨?_, ?_⟩
  case refine_2 =>
    intro k n data h
    obtain ⟨h1, h2, h3, h4, _, _⟩ := parse_share_line_ok_bounds h
    exact ⟨h1, h2, h3, h4⟩
  set parts := (trim line).splitOn '-' with hparts
  by_cases h34 : parts.length < 3 ∨ parts.length > 4
  · have hval : parse_share_line line = .error .expectedParts := by
      simp only [parse_share_line, ← hparts]
      rw [if_pos h34]
    refine iff_of_true ⟨.expectedParts, hval, rfl⟩ ?_
    rcases h34 with h | h
    · exact Or.inl h
    · exact Or.inr (Or.inl h)
  · cases hk : parse_u8 (parts.getD 0 []) with
    | none =>
      have hval : parse_share_line line = .error .intParse := by
        simp only [parse_share_line, ← hparts, hk]
        rw [if_neg h34]
      refine iff_of_true ⟨.intParse, hval, rfl⟩ ?_
      refine Or.inr (Or.inr (Or.inl ?_))
      intro v hv
      exact absurd hv (by simp)
    | some k =>
      cases hn : parse_u8 (parts.getD 1 []) with
      | none =>
        have hval : parse_share_line line = .error .intParse := by
          simp only [parse_share_line, ← hparts, hk, hn]
          rw [if_neg h34]
        refine iff_of_true ⟨.intParse, hval, rfl⟩ ?_
        refine Or.inr (Or.inr (Or.inr (Or.inl ?_)))
        intro v hv
        exact absurd hv (by simp)
      | some n =>
        by_cases hkn : k < 1 ∨ n < 1
        · have hval : parse_share_line line = .error .illegalKN := by
            simp only [parse_share_line, ← hparts, hk, hn]
            rw [if_neg h34, if_pos hkn]
          refine iff_of_true ⟨.illegalKN, hval, rfl⟩ ?_
          rcases hkn with h | h
          · refine Or.inr (Or.inr (Or.inl ?_))
            intro v hv
            have := Option.some.inj hv
            omega
          · refine Or.inr (Or.inr (Or.inr (Or.inl ?_)))
            intro v hv
            have := Option.some.inj hv
            omega
        · cases hdata : fromBase64 (parts.getD 2 []) with
          | none =>
            have hval : parse_share_line line = .error .base64Data := by
              simp only [parse_share_line, ← hparts, hk, hn, hdata]
              rw [if_neg h34, if_neg hkn]
            refine iff_of_true ⟨.base64Data, hval, rfl⟩ ?_
            exact Or.inr (Or.inr (Or.inr (Or.inr (Or.inl rfl))))
          | some data =>
            cases hchk : parts[3]? with
            | none =>
              have hval : parse_share_line line = .ok (k, n, data) := by
                simp only [parse_share_line, ← hparts, hk, hn, hdata, hchk]
                rw [if_neg h34, if_neg hkn]
              refine iff_of_false ?_ ?_
              · intro ⟨e, he, _⟩
                rw [hval] at he
                exact absurd he (by simp)
              · intro hrhs
                rcases hrhs with h | h | h | h | h | h
                · exact absurd (Or.inl h) h34
                · exact absurd (Or.inr h) h34
                · have := h k rfl
                  omega
                · have := h n rfl
                  omega
                · exact absurd h (by simp)
                · obtain ⟨chk, hc, _⟩ := h
                  exact absurd hc (by simp)
            | some chk =>
              by_cases hlen4 : chk.length ≠ 4
              · have hval : parse_share_line line = .error .checksumLen := by
                  simp only [parse_share_line, ← hparts, hk, hn, hdata, hchk]
                  rw [if_neg h34, if_neg hkn, if_pos hlen4]
                refine iff_of_true ⟨.checksumLen, hval, rfl⟩ ?_
                exact Or.inr (Or.inr (Or.inr (Or.inr (Or.inr
                  ⟨chk, rfl, Or.inl hlen4⟩))))
              · cases hcrc : fromBase64 chk with
                | none =>
                  have hval : parse_share_line line = .error .base64Checksum := by
                    simp only [parse_share_line, ← hparts, hk, hn, hdata, hchk, hcrc]
                    rw [if_neg h34, if_neg hkn, if_neg hlen4]
                  refine iff_of_true ⟨.base64Checksum, hval, rfl⟩ ?_
                  exact Or.inr (Or.inr (Or.inr (Or.inr (Or.inr
                    ⟨chk, rfl, Or.inr hcrc⟩))))
                | some crc =>
                  have hfalse : ¬ (parts.length < 3 ∨ 4 < parts.length ∨
                      (∀ v, (some k : Option Nat) = some v → v = 0) ∨
                      (∀ v, (some n : Option Nat) = some v → v = 0) ∨
                      (some data : Option (List Nat)) = none ∨
                      (∃ c, (some chk : Option (List Char)) = some c ∧
                        (c.length ≠ 4 ∨ fromBase64 c = none))) := by
                    intro hrhs
                    rcases hrhs with h | h | h | h | h | h
                    · exact absurd (Or.inl h) h34
                    · exact absurd (Or.inr h) h34
                    · have := h k rfl
                      omega
                    · have := h n rfl
                      omega
                    · exact absurd h (by simp)
                    · obtain ⟨c, hc, hbad⟩ := h
                      have hceq : chk = c := Option.some.inj hc
                      subst hceq
                      rcases hbad with h | h
                      · exact hlen4 h
                      · rw [hcrc] at h
                        exact absurd h (by simp)
                  by_cases hmis : crc ≠ crc24_as_bytes k n data
                  · have hval : parse_share_line line = .error .checksumMismatch := by
                      simp only [parse_share_line, ← hparts, hk, hn, hdata, hchk, hcrc]
                      rw [if_neg h34, if_neg hkn, if_neg hlen4, if_pos hmis]
                    refine iff_of_false ?_ hfalse
                    intro ⟨e, he, hsp⟩
                    rw [hval] at he
                    have he2 : ShareError.checksumMismatch = e := Except.error.inj he
                    rw [← he2] at hsp
                    exact absurd hsp (by simp [ShareError.isShareParse])
                  · have hval : parse_share_line line = .ok (k, n, data) := by
                      simp only [parse_share_line, ← hparts, hk, hn, hdata, hchk, hcrc]
                      rw [if_neg h34, if_neg hkn, if_neg hlen4, if_neg hmis]
                    refine iff_of_false ?_ hfalse
                    intro ⟨e, he, _⟩
                    rw [hval] at he
                    exact absurd he (by simp)

/-- Indexing the base64 alphabet inverts the character table. -/
theorem b64Index_b64Char : ∀ i < 64, b64Index (b64Char i) = some i := by decide

/-- Alphabet characters are neither whitespace nor the separator. -/
theorem b64Char_class : ∀ i < 64,
    (b64Char i).isWhitespace = false ∧ ((b64Char i) == '-') = false := by decide

/-- Parsing the decimal rendering of a byte value recovers it. -/
theorem decRepr_parse : ∀ v < 256, parse_u8 (decRepr v) = some v := by decide

/-- Decimal digits are neither whitespace nor the separator. -/
theorem decRepr_class : ∀ v < 256, ∀ c ∈ decRepr v,
    c.isWhitespace = false ∧ (c == '-') = false := by decide

/-- Every character emitted by `toBase64` on byte input is an alphabet
character: not whitespace and not '-'. -/
theorem toBase64_class : ∀ (N : Nat) (bs : List Nat), bs.length ≤ N →
    (∀ b ∈ bs, b < 256) →
    ∀ c ∈ toBase64 bs, c.isWhitespace = false ∧ (c == '-') = false := by
  intro N
  induction N with
  | zero =>
    intro bs hlen _ c hc
    have hnil : bs = [] := List.eq_nil_of_length_eq_zero (by omega)
    subst hnil
    simp [toBase64] at hc
  | succ N ih =>
    intro bs hlen hbs c hc
    match bs with
    | [] => simp [toBase64] at hc
    | [b1] =>
      have h1 : b1 < 256 := hbs b1 (by simp)
      simp only [toBase64, List.mem_cons, List.not_mem_nil, or_false] at hc
      rcases hc with rfl | rfl
      · exact b64Char_class _ (by omega)
      · exact b64Char_class _ (by omega)
    | [b1, b2] =>
      have h1 : b1 < 256 := hbs b1 (by simp)
      have h2 : b2 < 256 := hbs b2 (by simp)
      simp only [toBase64, List.mem_cons, List.not_mem_nil, or_false] at hc
      rcases hc with rfl | rfl | rfl
      · exact b64Char_class _ (by omega)
      · exact b64Char_class _ (by omega)
      · exact b64Char_class _ (by omega)
    | b1 :: b2 :: b3 :: rest =>
      have h1 : b1 < 256 := hbs b1 (by simp)
      have h2 : b2 < 256 := hbs b2 (by simp)
      have h3 : b3 < 256 := hbs b3 (by simp)
      simp only [toBase64, List.mem_cons] at hc
      rcases hc with rfl | rfl | rfl | rfl | hc
      · exact b64Char_class _ (by omega)
      · exact b64Char_class _ (by omega)
      · exact b64Char_class _ (by omega)
      · exact b64Char_class _ (by omega)
      · refine ih rest ?_ (fun b hb => hbs b (by simp [hb])) c hc
        simp only [List.length_cons] at hlen
        omega

/-- Decoding the base64 rendering of a byte list recovers it. -/
theorem fromBase64_toBase64 : ∀ (N : Nat) (bs : List Nat), bs.length ≤ N →
    (∀ b ∈ bs, b < 256) → fromBase64 (toBase64 bs) = some bs := by
  intro N
  induction N with
  | zero =>
    intro bs hlen _
    have hnil : bs = [] := List.eq_nil_of_length_eq_zero (by omega)
    subst hnil
    rfl
  | succ N ih =>
    intro bs hlen hbs
    match bs with
    | [] => rfl
    | [b1] =>
      have h1 : b1 < 256 := hbs b1 (by simp)
      simp only [toBase64, fromBase64, b64Index_b64Char _ (by omega : b1 / 4 < 64),
        b64Index_b64Char _ (by omega : b1 % 4 * 16 < 64), Option.bind_eq_bind,
        Option.some_bind]
      have e1 : b1 / 4 * 4 + b1 % 4 * 16 / 16 = b1 := by omega
      rw [e1]
    | [b1, b2] =>
      have h1 : b1 < 256 := hbs b1 (by simp)
      have h2 : b2 < 256 := hbs b2 (by simp)
      simp only [toBase64, fromBase64, b64Index_b64Char _ (by omega : b1 / 4 < 64),
        b64Index_b64Char _ (by omega : b1 % 4 * 16 + b2 / 16 < 64),
        b64Index_b64Char _ (by omega : b2 % 16 * 4 < 64), Option.bind_eq_bind,
        Option.some_bind]
      have e1 : b1 / 4 * 4 + (b1 % 4 * 16 + b2 / 16) / 16 = b1 := by omega
      have e2 : (b1 % 4 * 16 + b2 / 16) % 16 * 16 + b2 % 16 * 4 / 4 = b2 := by omega
      rw [e1, e2]
    | b1 :: b2 :: b3 :: rest =>
      have h1 : b1 < 256 := hbs b1 (by simp)
      have h2 : b2 < 256 := hbs b2 (by simp)
      have h3 : b3 < 256 := hbs b3 (by simp)
      have htail : fromBase64 (toBase64 rest) = some rest := by
        refine ih rest ?_ (fun b hb => hbs b (by simp [hb]))
        simp only [List.length_cons] at hlen
        omega
      simp only [toBase64, fromBase64, b64Index_b64Char _ (by omega : b1 / 4 < 64),
        b64Index_b64Char _ (by omega : b1 % 4 * 16 + b2 / 16 < 64),
        b64Index_b64Char _ (by omega : b2 % 16 * 4 + b3 / 64 < 64),
        b64Index_b64Char _ (by omega : b3 % 64 < 64), htail, Option.bind_eq_bind,
        Option.some_bind]
      have e1 : b1 / 4 * 4 + (b1 % 4 * 16 + b2 / 16) / 16 = b1 := by omega
      have e2 : (b1 % 4 * 16 + b2 / 16) % 16 * 16 + (b2 % 16 * 4 + b3 / 64) / 4 = b2 := by
        omega
      have e3 : (b2 % 16 * 4 + b3 / 64) % 4 * 64 + b3 % 64 = b3 := by omega
      rw [e1, e2, e3]

theorem dropWhile_ws_eq_self {l : List Char}
    (h : ∀ c ∈ l, c.isWhitespace = false) :
    l.dropWhile Char.isWhitespace = l := by
  cases l with
  | nil => rfl
  | cons c t =>
    exact List.dropWhile_cons_of_neg (by simp [h c (List.mem_cons_self c t)])

/-- Trimming a line with no whitespace characters leaves it unchanged. -/
theorem trim_eq_self {l : List Char} (h : ∀ c ∈ l, c.isWhitespace = false) :
    trim l = l := by
  rw [trim, dropWhile_ws_eq_self h,
    dropWhile_ws_eq_self (fun c hc => h c (List.mem_reverse.mp hc)),
    List.reverse_reverse]

/-- A share line assembled from arbitrary field texts: the K field, x field
and data segment of `format_share_line`, but with an explicit checksum byte
list in place of the computed one.  `format_share_line k x data true` is
exactly `format_share_line_raw k x data (crc24_as_bytes k x data)`; a line
with one corrupted field is the raw line over the corrupted field values. -/
def format_share_line_raw (k x : Nat) (data crc_bytes : List Nat) : List Char :=
  decRepr k ++ '-' :: decRepr x ++ '-' :: toBase64 data
    ++ '-' :: toBase64 crc_bytes

theorem format_share_line_eq_raw (k x : Nat) (data : List Nat) :
    format_share_line k x data true
      = format_share_line_raw k x data (crc24_as_bytes k x data) := rfl

/-- Splitting a raw share line on '-' recovers its four segments. -/
theorem splitOn_format_raw (k x : Nat) (data crc : List Nat)
    (hk : k < 256) (hx : x < 256)
    (hdata : ∀ b ∈ data, b < 256) (hcrc : ∀ b ∈ crc, b < 256) :
    (trim (format_share_line_raw k x data crc)).splitOn '-'
      = [decRepr k, decRepr x, toBase64 data, toBase64 crc] := by
  have hA := decRepr_class k hk
  have hB := decRepr_class x hx
  have hC := toBase64_class data.length data le_rfl hdata
  have hD := toBase64_class crc.length crc le_rfl hcrc
  have hdash : ('-' : Char).isWhitespace = false := by decide
  have htrim : trim (format_share_line_raw k x data crc)
      = format_share_line_raw k x data crc := by
    apply trim_eq_self
    intro c hc
    rw [format_share_line_raw] at hc
    simp only [List.cons_append, List.append_assoc, List.mem_append,
      List.mem_cons] at hc
    rcases hc with h | rfl | h | rfl | h | rfl | h
    · exact (hA c h).1
    · exact hdash
    · exact (hB c h).1
    · exact hdash
    · exact (hC c h).1
    · exact hdash
    · exact (hD c h).1
  rw [htrim, format_share_line_raw, List.splitOn]
  simp only [List.cons_append, List.append_assoc]
  rw [List.splitOnP_first _ _ (fun c hc => by simp [(hA c hc).2]) '-' (by decide)]
  rw [List.splitOnP_first _ _ (fun c hc => by simp [(hB c hc).2]) '-' (by decide)]
  rw [List.splitOnP_first _ _ (fun c hc => by simp [(hC c hc).2]) '-' (by decide)]
  rw [List.splitOnP_eq_single _ _ (fun c hc => by simp [(hD c hc).2])]

theorem toBase64_three (a b c : Nat) :
    toBase64 [a, b, c] = [b64Char (a / 4), b64Char (a % 4 * 16 + b / 16),
      b64Char (b % 16 * 4 + c / 64), b64Char (c % 64)] := rfl

/-- Parsing a raw share line: the segment structure and the field texts are
always accepted, so the outcome is decided by the K/x range check and the
checksum comparison alone. -/
theorem parse_format_raw (k x : Nat) (data crc : List Nat)
    (hk' : k ≤ 255) (hx' : x ≤ 255)
    (hdata : ∀ b ∈ data, b < 256) (hcrc : ∀ b ∈ crc, b < 256)
    (hcrc3 : crc.length = 3) :
    parse_share_line (format_share_line_raw k x data crc)
      = if k < 1 ∨ x < 1 then .error .illegalKN
        else if crc = crc24_as_bytes k x data then .ok (k, x, data)
        else .error .checksumMismatch := by
  obtain ⟨c1, c2, c3, rfl⟩ := List.length_eq_three.mp hcrc3
  have hc1 : c1 < 256 := hcrc c1 (by simp)
  have hc2 : c2 < 256 := hcrc c2 (by simp)
  have hc3 : c3 < 256 := hcrc c3 (by simp)
  have hsplit := splitOn_format_raw k x data [c1, c2, c3] (by omega) (by omega)
    hdata hcrc
  have hlen4 : (toBase64 [c1, c2, c3]).length = 4 := by
    rw [toBase64_three]
    rfl
  have hrt : fromBase64 (toBase64 [c1, c2, c3]) = some [c1, c2, c3] :=
    fromBase64_toBase64 3 [c1, c2, c3] (by simp) hcrc
  simp only [parse_share_line, hsplit, List.length_cons, List.length_nil,
    List.getD_cons_zero, List.getD_cons_succ,
    decRepr_parse k (by omega), decRepr_parse x (by omega),
    fromBase64_toBase64 data.length data le_rfl hdata,
    List.getElem?_cons_succ, List.getElem?_cons_zero, hrt, hlen4]
  rw [if_neg (by omega)]
  by_cases hzero : k < 1 ∨ x < 1
  · rw [if_pos hzero, if_pos hzero]
  · rw [if_neg hzero, if_neg hzero, if_neg (show ¬(4 : Nat) ≠ 4 by omega)]
    by_cases he : ([c1, c2, c3] : List Nat) = crc24_as_bytes k x data
    · rw [if_neg (fun hne => hne he), if_pos he]
    · rw [if_pos he, if_neg he]

theorem two_mul_xor (a b : Nat) : 2 * (a ^^^ b) = 2 * a ^^^ 2 * b := by
  have hdiv : (2 * a ^^^ 2 * b) / 2 = a ^^^ b := by
    rw [Nat.xor_div_two]
    have h1 : 2 * a / 2 = a := by omega
    have h2 : 2 * b / 2 = b := by omega
    rw [h1, h2]
  have hmod : (2 * a ^^^ 2 * b) % 2 = (2 * a + 2 * b) % 2 := Nat.xor_mod_two_eq
  omega

/-- Bit 24 of a 25-bit value, as the arithmetic threshold 2^24. -/
theorem and_bit24 {d : Nat} (hd : d < 33554432) :
    d &&& 16777216 = if 16777216 ≤ d then 16777216 else 0 := by
  have hp : (16777216 : Nat) = 2 ^ 24 := by norm_num
  have h1 : d &&& 2 ^ 24 = (d.testBit 24).toNat * 2 ^ 24 := Nat.and_two_pow d 24
  have h2 : d.testBit 24 = decide (d / 2 ^ 24 % 2 = 1) := Nat.testBit_to_div_mod
  rw [← hp] at h1 h2
  by_cases h : 16777216 ≤ d
  · have hq : d / 16777216 % 2 = 1 := by omega
    rw [h1, h2, hq, if_pos h]
    rfl
  · have hq : d / 16777216 % 2 = 0 := by omega
    rw [h1, h2, hq, if_neg h]
    rfl

theorem xor_24_split {r : Nat} (hr : r < 16777216) :
    16777216 ^^^ r = 16777216 + r := by
  have h := two_pow_xor_eq_add 24 r (by norm_num; omega)
  norm_num at h
  exact h

theorem xor_lt_24 {a b : Nat} (ha : a < 16777216) (hb : b < 16777216) :
    a ^^^ b < 16777216 := by
  have h := Nat.xor_lt_two_pow (n := 24) (show a < 2 ^ 24 by norm_num; omega)
    (show b < 2 ^ 24 by norm_num; omega)
  norm_num at h
  exact h

theorem xor_hl24 {a b : Nat} (ha : 16777216 ≤ a) (ha' : a < 33554432)
    (hb : b < 16777216) : a ^^^ b = 16777216 + ((a - 16777216) ^^^ b) := by
  have h1 : a = 16777216 ^^^ (a - 16777216) := by
    rw [xor_24_split (show a - 16777216 < 16777216 by omega)]
    omega
  calc a ^^^ b = (16777216 ^^^ (a - 16777216)) ^^^ b := by rw [← h1]
    _ = 16777216 ^^^ ((a - 16777216) ^^^ b) := Nat.xor_assoc _ _ _
    _ = 16777216 + ((a - 16777216) ^^^ b) :=
        xor_24_split (xor_lt_24 (by omega) hb)

theorem xor_hh24 {a b : Nat} (ha : 16777216 ≤ a) (ha' : a < 33554432)
    (hb : 16777216 ≤ b) (hb' : b < 33554432) :
    a ^^^ b = (a - 16777216) ^^^ (b - 16777216) := by
  have h1 : a = 16777216 ^^^ (a - 16777216) := by
    rw [xor_24_split (show a - 16777216 < 16777216 by omega)]
    omega
  have h2 : b = 16777216 ^^^ (b - 16777216) := by
    rw [xor_24_split (show b - 16777216 < 16777216 by omega)]
    omega
  calc a ^^^ b
      = (16777216 ^^^ (a - 16777216)) ^^^ (16777216 ^^^ (b - 16777216)) := by
        rw [← h1, ← h2]
    _ = (a - 16777216) ^^^ (b - 16777216) := xor_shuffle _ _ _

/-- The CRC-24 shift step on a 24-bit state, in arithmetic form: double, and
on bit-24 overflow xor with the polynomial 0x1864CFB. -/
theorem crc24_step_eq {s : Nat} (hs : s < 16777216) :
    crc24_step s = if 16777216 ≤ 2 * s then 2 * s ^^^ 25578747 else 2 * s := by
  have hsh : s <<< 1 = 2 * s := by
    rw [Nat.shiftLeft_eq]
    ring
  have hpoly : (0x1864CFB : Nat) = 25578747 := by norm_num
  simp only [crc24_step, hsh, hpoly, and_bit24 (show 2 * s < 33554432 by omega)]
  by_cases h : 16777216 ≤ 2 * s
  · rw [if_pos h, if_pos (show (16777216 : Nat) ≠ 0 by omega), if_pos h]
  · rw [if_neg h, if_neg (show ¬(0 : Nat) ≠ 0 by omega), if_neg h]

theorem crc24_step_lt {s : Nat} (hs : s < 16777216) : crc24_step s < 16777216 := by
  rw [crc24_step_eq hs]
  by_cases h : 16777216 ≤ 2 * s
  · rw [if_pos h]
    have hsub : 2 * s ^^^ 25578747 = (2 * s - 16777216) ^^^ 8801531 :=
      xor_hh24 h (by omega) (by norm_num) (by norm_num)
    rw [hsub]
    exact xor_lt_24 (by omega) (by norm_num)
  · rw [if_neg h]
    omega

theorem crc24_step_ne_zero {s : Nat} (hs : s < 16777216) (h0 : s ≠ 0) :
    crc24_step s ≠ 0 := by
  rw [crc24_step_eq hs]
  by_cases h : 16777216 ≤ 2 * s
  · rw [if_pos h]
    intro hz
    have heq : 2 * s = 25578747 := Nat.xor_eq_zero.mp hz
    omega
  · rw [if_neg h]
    omega

/-- The CRC-24 shift step is GF(2)-linear on 24-bit states. -/
theorem crc24_step_xor {u v : Nat} (hu : u < 16777216) (hv : v < 16777216) :
    crc24_step (u ^^^ v) = crc24_step u ^^^ crc24_step v := by
  rw [crc24_step_eq (xor_lt_24 hu hv), crc24_step_eq hu, crc24_step_eq hv,
    two_mul_xor u v]
  by_cases hA : 16777216 ≤ 2 * u <;> by_cases hB : 16777216 ≤ 2 * v
  · have hc : ¬ 16777216 ≤ 2 * u ^^^ 2 * v := by
      rw [xor_hh24 hA (by omega) hB (by omega)]
      have := xor_lt_24 (show 2 * u - 16777216 < 16777216 by omega)
        (show 2 * v - 16777216 < 16777216 by omega)
      omega
    rw [if_neg hc, if_pos hA, if_pos hB, xor_shuffle_right,
      xor_hh24 hA (by omega) hB (by omega)]
  · have hc : 16777216 ≤ 2 * u ^^^ 2 * v := by
      rw [xor_hl24 hA (by omega) (by omega)]
      omega
    rw [if_pos hc, if_pos hA, if_neg hB, Nat.xor_assoc,
      Nat.xor_comm (2 * v) 25578747, ← Nat.xor_assoc]
  · have hc : 16777216 ≤ 2 * u ^^^ 2 * v := by
      rw [Nat.xor_comm, xor_hl24 hB (by omega) (by omega)]
      omega
    rw [if_pos hc, if_neg hA, if_pos hB, Nat.xor_assoc]
  · have hc : ¬ 16777216 ≤ 2 * u ^^^ 2 * v := by
      have := xor_lt_24 (show 2 * u < 16777216 by omega)
        (show 2 * v < 16777216 by omega)
      omega
    rw [if_neg hc, if_neg hA, if_neg hB]

theorem crc24_steps_lt : ∀ (n : Nat) {s : Nat}, s < 16777216 →
    crc24_steps n s < 16777216 := by
  intro n
  induction n with
  | zero => intro s hs; exact hs
  | succ n ih =>
    intro s hs
    show crc24_steps n (crc24_step s) < 16777216
    exact ih (crc24_step_lt hs)

theorem crc24_steps_ne_zero : ∀ (n : Nat) {s : Nat}, s < 16777216 → s ≠ 0 →
    crc24_steps n s ≠ 0 := by
  intro n
  induction n with
  | zero => intro s _ h0; exact h0
  | succ n ih =>
    intro s hs h0
    show crc24_steps n (crc24_step s) ≠ 0
    exact ih (crc24_step_lt hs) (crc24_step_ne_zero hs h0)

theorem crc24_steps_xor : ∀ (n : Nat) {u v : Nat}, u < 16777216 →
    v < 16777216 →
    crc24_steps n (u ^^^ v) = crc24_steps n u ^^^ crc24_steps n v := by
  intro n
  induction n with
  | zero => intro u v _ _; rfl
  | succ n ih =>
    intro u v hu hv
    show crc24_steps n (crc24_step (u ^^^ v))
      = crc24_steps n (crc24_step u) ^^^ crc24_steps n (crc24_step v)
    rw [crc24_step_xor hu hv]
    exact ih (crc24_step_lt hu) (crc24_step_lt hv)

/-- Eight shift steps never collapse two distinct 24-bit states. -/
theorem crc24_steps8_inj {u v : Nat} (hu : u < 16777216) (hv : v < 16777216)
    (hne : u ≠ v) : crc24_steps 8 u ≠ crc24_steps 8 v := by
  intro he
  have h8 := crc24_steps_xor 8 hu hv
  rw [he, Nat.xor_self] at h8
  have hx0 : u ^^^ v ≠ 0 := fun h => hne (Nat.xor_eq_zero.mp h)
  exact crc24_steps_ne_zero 8 (xor_lt_24 hu hv) hx0 h8

theorem shl16_lt {b : Nat} (hb : b < 256) : b <<< 16 < 16777216 := by
  rw [Nat.shiftLeft_eq]
  norm_num
  omega

theorem crc24_update_lt {s b : Nat} (hs : s < 16777216) (hb : b < 256) :
    crc24_update s b < 16777216 :=
  crc24_steps_lt 8 (xor_lt_24 hs (shl16_lt hb))

/-- Absorbing the same byte into two distinct states keeps them distinct. -/
theorem crc24_update_ne {s t b : Nat} (hs : s < 16777216) (ht : t < 16777216)
    (hb : b < 256) (hne : s ≠ t) : crc24_update s b ≠ crc24_update t b := by
  rw [crc24_update, crc24_update]
  apply crc24_steps8_inj (xor_lt_24 hs (shl16_lt hb)) (xor_lt_24 ht (shl16_lt hb))
  intro he
  apply hne
  have h2 := congrArg (fun z => z ^^^ b <<< 16) he
  simp only [Nat.xor_assoc, Nat.xor_self, Nat.xor_zero] at h2
  exact h2

theorem crc24_fold_lt : ∀ (bytes : List Nat) {s : Nat}, s < 16777216 →
    (∀ b ∈ bytes, b < 256) → List.foldl crc24_update s bytes < 16777216 := by
  intro bytes
  induction bytes with
  | nil => intro s hs _; exact hs
  | cons b t ih =>
    intro s hs hb
    rw [List.foldl_cons]
    exact ih (crc24_update_lt hs (hb b (by simp))) (fun c hc => hb c (by simp [hc]))

theorem crc24_fold_ne : ∀ (bytes : List Nat) {s t : Nat}, s < 16777216 →
    t < 16777216 → s ≠ t → (∀ b ∈ bytes, b < 256) →
    List.foldl crc24_update s bytes ≠ List.foldl crc24_update t bytes := by
  intro bytes
  induction bytes with
  | nil => intro s t _ _ hne _; exact hne
  | cons b u ih =>
    intro s t hs ht hne hb
    rw [List.foldl_cons, List.foldl_cons]
    have hbb : b < 256 := hb b (by simp)
    exact ih (crc24_update_lt hs hbb) (crc24_update_lt ht hbb)
      (crc24_update_ne hs ht hbb hne) (fun c hc => hb c (by simp [hc]))

/-- The CRC-24 of a well-formed byte stream is a 24-bit value. -/
theorem crc24_lt {bytes : List Nat} (hb : ∀ b ∈ bytes, b < 256) :
    crc24 bytes < 16777216 :=
  crc24_fold_lt bytes (by norm_num) hb

/-- Changing one byte of the stream always changes the CRC-24. -/
theorem crc24_byte_ne {pre post : List Nat} {b b' : Nat}
    (hpre : ∀ c ∈ pre, c < 256) (hpost : ∀ c ∈ post, c < 256)
    (hb : b < 256) (hb' : b' < 256) (hne : b ≠ b') :
    crc24 (pre ++ b :: post) ≠ crc24 (pre ++ b' :: post) := by
  rw [crc24, crc24, List.foldl_append, List.foldl_append, List.foldl_cons,
    List.foldl_cons]
  have hs : List.foldl crc24_update 0xB704CE pre < 16777216 :=
    crc24_fold_lt pre (by norm_num) hpre
  refine crc24_fold_ne post (crc24_update_lt hs hb) (crc24_update_lt hs hb')
    ?_ hpost
  rw [crc24_update, crc24_update]
  apply crc24_steps8_inj (xor_lt_24 hs (shl16_lt hb)) (xor_lt_24 hs (shl16_lt hb'))
  intro he
  apply hne
  have h2 := congrArg (fun z => (List.foldl crc24_update 0xB704CE pre) ^^^ z) he
  simp only [Nat.xor_cancel_left] at h2
  have h3 : b * 65536 = b' * 65536 := by
    have e1 : b <<< 16 = b * 65536 := by
      rw [Nat.shiftLeft_eq]
    have e2 : b' <<< 16 = b' * 65536 := by
      rw [Nat.shiftLeft_eq]
    rw [← e1, ← e2]
    exact h2
  omega

theorem and_255_eq_mod (z : Nat) : z &&& 255 = z % 256 := by
  have h := Nat.and_pow_two_sub_one_eq_mod z 8
  norm_num at h
  exact h

/-- The serialized checksum is three bytes. -/
theorem crc24_as_bytes_bytes (k x : Nat) (d : List Nat) :
    ∀ b ∈ crc24_as_bytes k x d, b < 256 := by
  intro b hb
  simp only [crc24_as_bytes, List.mem_cons, List.not_mem_nil, or_false] at hb
  rcases hb with rfl | rfl | rfl
  · have h255 : (crc24 (k :: x :: d) >>> 16) &&& 255 ≤ 255 := Nat.and_le_right
    omega
  · have h255 : (crc24 (k :: x :: d) >>> 8) &&& 255 ≤ 255 := Nat.and_le_right
    omega
  · have h255 : crc24 (k :: x :: d) &&& 255 ≤ 255 := Nat.and_le_right
    omega

theorem crc24_as_bytes_len (k x : Nat) (d : List Nat) :
    (crc24_as_bytes k x d).length = 3 := rfl

/-- Big-endian serialization of 24-bit CRC values is injective: distinct
checksums give distinct 3-byte lists. -/
theorem crc24_as_bytes_inj {k x k' x' : Nat} {d d' : List Nat}
    (h : crc24 (k :: x :: d) ≠ crc24 (k' :: x' :: d'))
    (hlt : crc24 (k :: x :: d) < 16777216)
    (hlt' : crc24 (k' :: x' :: d') < 16777216) :
    crc24_as_bytes k x d ≠ crc24_as_bytes k' x' d' := by
  intro he
  apply h
  simp only [crc24_as_bytes, List.cons.injEq, and_true] at he
  obtain ⟨e1, e2, e3⟩ := he
  rw [and_255_eq_mod, and_255_eq_mod] at e1 e2 e3
  have s1 : crc24 (k :: x :: d) >>> 16 = crc24 (k :: x :: d) / 65536 := by
    rw [Nat.shiftRight_eq_div_pow]
  have s2 : crc24 (k' :: x' :: d') >>> 16 = crc24 (k' :: x' :: d') / 65536 := by
    rw [Nat.shiftRight_eq_div_pow]
  have s3 : crc24 (k :: x :: d) >>> 8 = crc24 (k :: x :: d) / 256 := by
    rw [Nat.shiftRight_eq_div_pow]
  have s4 : crc24 (k' :: x' :: d') >>> 8 = crc24 (k' :: x' :: d') / 256 := by
    rw [Nat.shiftRight_eq_div_pow]
  rw [s1, s2] at e1
  rw [s3, s4] at e2
  omega

theorem pow2_lt_256 {i : Nat} (hi : i < 8) : 2 ^ i < 256 := by
  have h := Nat.pow_lt_pow_right (show 1 < 2 by omega) hi
  norm_num at h
  exact h

/-- Flipping a bit always changes the value. -/
theorem flip_ne_self (b i : Nat) : b ^^^ 2 ^ i ≠ b := by
  intro h
  have h2 := congrArg (fun z => b ^^^ z) h
  simp only [Nat.xor_cancel_left, Nat.xor_self] at h2
  have hp : 0 < 2 ^ i := Nat.pow_pos (by omega)
  omega

/-- A raw line whose checksum segment does not encode the recomputed CRC is
always rejected (the K/x range check may fire first, but some error occurs). -/
theorem parse_raw_error_of_ne (k x : Nat) (data crc : List Nat)
    (hk' : k ≤ 255) (hx' : x ≤ 255) (hdata : ∀ b ∈ data, b < 256)
    (hcrc : ∀ b ∈ crc, b < 256) (hcrc3 : crc.length = 3)
    (hne : crc ≠ crc24_as_bytes k x data) :
    ∃ e, parse_share_line (format_share_line_raw k x data crc) = .error e := by
  rw [parse_format_raw k x data crc hk' hx' hdata hcrc hcrc3]
  by_cases hz : k < 1 ∨ x < 1
  · exact ⟨.illegalKN, by rw [if_pos hz]⟩
  · exact ⟨.checksumMismatch, by rw [if_neg hz, if_neg hne]⟩

/-- Claim C6: the share checksum is the CRC-24 of the byte stream K, x,
data, serialized big-endian as three bytes; re-parsing an emitted
checksummed line accepts it and returns its fields, and flipping any single
bit of the K field, the x field, a data byte, or a checksum byte makes the
parser reject the line. -/
theorem checksum_roundtrip_bitflip (k x : Nat) (data : List Nat)
    (hk : 1 ≤ k) (hk' : k ≤ 255) (hx : 1 ≤ x) (hx' : x ≤ 255)
    (hdata : ∀ b ∈ data, b < 256) :
    (crc24_as_bytes k x data
      = [(crc24 (k :: x :: data) >>> 16) &&& 255,
         (crc24 (k :: x :: data) >>> 8) &&& 255,
         crc24 (k :: x :: data) &&& 255]) ∧
    parse_share_line (format_share_line k x data true) = .ok (k, x, data) ∧
    (∀ i < 8, ∃ e, parse_share_line
        (format_share_line_raw (k ^^^ 2 ^ i) x data (crc24_as_bytes k x data))
        = .error e) ∧
    (∀ i < 8, ∃ e, parse_share_line
        (format_share_line_raw k (x ^^^ 2 ^ i) data (crc24_as_bytes k x data))
        = .error e) ∧
    (∀ j, j < data.length → ∀ i < 8, ∃ e, parse_share_line
        (format_share_line_raw k x (data.set j (data.getD j 0 ^^^ 2 ^ i))
          (crc24_as_bytes k x data)) = .error e) ∧
    (∀ j, j < 3 → ∀ i < 8, ∃ e, parse_share_line
        (format_share_line_raw k x data
          ((crc24_as_bytes k x data).set j
            ((crc24_as_bytes k x data).getD j 0 ^^^ 2 ^ i))) = .error e) := by
  have hkb : k < 256 := by omega
  have hxb : x < 256 := by omega
  have hstream : ∀ b ∈ (k :: x :: data), b < 256 := by
    intro b hb
    rcases List.mem_cons.mp hb with rfl | hb
    · omega
    · rcases List.mem_cons.mp hb with rfl | hb
      · omega
      · exact hdata b hb
  refine ⟨rfl, ?_, ?_, ?_, ?_, ?_⟩
  · rw [format_share_line_eq_raw,
      parse_format_raw k x data _ hk' hx' hdata (crc24_as_bytes_bytes k x data)
        (crc24_as_bytes_len k x data), if_neg (by omega), if_pos rfl]
  · intro i hi
    have h2i : 2 ^ i < 256 := pow2_lt_256 hi
    have hkflip : k ^^^ 2 ^ i < 256 := xor_lt_256 hkb h2i
    refine parse_raw_error_of_ne _ _ _ _ (by omega) hx' hdata
      (crc24_as_bytes_bytes k x data) (crc24_as_bytes_len k x data) ?_
    have hstream' : ∀ b ∈ ((k ^^^ 2 ^ i) :: x :: data), b < 256 := by
      intro b hb
      rcases List.mem_cons.mp hb with rfl | hb
      · omega
      · exact hstream b (List.mem_cons_of_mem k hb)
    refine crc24_as_bytes_inj ?_ (crc24_lt hstream) (crc24_lt hstream')
    exact @crc24_byte_ne [] (x :: data) k (k ^^^ 2 ^ i) (by simp)
      (fun c hc => hstream c (List.mem_cons_of_mem k hc)) hkb hkflip
      (Ne.symm (flip_ne_self k i))
  · intro i hi
    have h2i : 2 ^ i < 256 := pow2_lt_256 hi
    have hxflip : x ^^^ 2 ^ i < 256 := xor_lt_256 hxb h2i
    refine parse_raw_error_of_ne _ _ _ _ hk' (by omega) hdata
      (crc24_as_bytes_bytes k x data) (crc24_as_bytes_len k x data) ?_
    have hstream' : ∀ b ∈ (k :: (x ^^^ 2 ^ i) :: data), b < 256 := by
      intro b hb
      rcases List.mem_cons.mp hb with rfl | hb
      · omega
      · rcases List.mem_cons.mp hb with rfl | hb
        · omega
        · exact hdata b hb
    refine crc24_as_bytes_inj ?_ (crc24_lt hstream) (crc24_lt hstream')
    exact @crc24_byte_ne [k] data x (x ^^^ 2 ^ i)
      (by intro c hc; rcases List.mem_cons.mp hc with rfl | hc
          · omega
          · simp at hc)
      hdata hxb hxflip (Ne.symm (flip_ne_self x i))
  · intro j hj i hi
    have h2i : 2 ^ i < 256 := pow2_lt_256 hi
    have hdj : data.getD j 0 = data[j] := List.getD_eq_getElem data 0 hj
    have hjb : data[j] < 256 := hdata _ (List.getElem_mem hj)
    have hsplit1 : data = data.take j ++ data[j] :: data.drop (j + 1) := by
      conv_lhs => rw [← List.take_append_drop j data]
      rw [List.drop_eq_getElem_cons hj]
    have hsplit2 : data.set j (data.getD j 0 ^^^ 2 ^ i)
        = data.take j ++ (data[j] ^^^ 2 ^ i) :: data.drop (j + 1) := by
      rw [hdj, List.set_eq_take_append_cons_drop, if_pos hj]
    have hdata' : ∀ b ∈ data.set j (data.getD j 0 ^^^ 2 ^ i), b < 256 := by
      rw [hsplit2]
      intro b hb
      rcases List.mem_append.mp hb with hb | hb
      · exact hdata b (List.take_subset j data hb)
      · rcases List.mem_cons.mp hb with rfl | hb
        · exact xor_lt_256 hjb h2i
        · exact hdata b (List.drop_subset (j + 1) data hb)
    refine parse_raw_error_of_ne _ _ _ _ hk' hx' hdata'
      (crc24_as_bytes_bytes k x data) (crc24_as_bytes_len k x data) ?_
    have hstream' : ∀ b ∈ (k :: x :: data.set j (data.getD j 0 ^^^ 2 ^ i)),
        b < 256 := by
      intro b hb
      rcases List.mem_cons.mp hb with rfl | hb
      · omega
      · rcases List.mem_cons.mp hb with rfl | hb
        · omega
        · exact hdata' b hb
    refine crc24_as_bytes_inj ?_ (crc24_lt hstream) (crc24_lt hstream')
    have hpre : ∀ c ∈ (k :: x :: data.take j), c < 256 := by
      intro c hc
      rcases List.mem_cons.mp hc with rfl | hc
      · omega
      · rcases List.mem_cons.mp hc with rfl | hc
        · omega
        · exact hdata c (List.take_subset j data hc)
    have hpost : ∀ c ∈ data.drop (j + 1), c < 256 :=
      fun c hc => hdata c (List.drop_subset (j + 1) data hc)
    have hcne := @crc24_byte_ne (k :: x :: data.take j) (data.drop (j + 1))
      data[j] (data[j] ^^^ 2 ^ i) hpre hpost hjb (xor_lt_256 hjb h2i)
      (Ne.symm (flip_ne_self data[j] i))
    have e1 : (k :: x :: data.take j) ++ data[j] :: data.drop (j + 1)
        = k :: x :: data := by
      rw [List.cons_append, List.cons_append, ← hsplit1]
    have e2 : (k :: x :: data.take j) ++ (data[j] ^^^ 2 ^ i) :: data.drop (j + 1)
        = k :: x :: data.set j (data.getD j 0 ^^^ 2 ^ i) := by
      rw [List.cons_append, List.cons_append, ← hsplit2]
    rw [e1, e2] at hcne
    exact hcne
  · intro j hj i hi
    have h2i : 2 ^ i < 256 := pow2_lt_256 hi
    obtain ⟨a1, a2, a3, hE⟩ := List.length_eq_three.mp (crc24_as_bytes_len k x data)
    have ha1 : a1 < 256 := crc24_as_bytes_bytes k x data a1 (by rw [hE]; simp)
    have ha2 : a2 < 256 := crc24_as_bytes_bytes k x data a2 (by rw [hE]; simp)
    have ha3 : a3 < 256 := crc24_as_bytes_bytes k x data a3 (by rw [hE]; simp)
    interval_cases j
    · rw [hE]
      simp only [List.getD_cons_zero, List.set_cons_zero]
      refine parse_raw_error_of_ne k x data _ hk' hx' hdata ?_ rfl ?_
      · intro b hb
        rcases List.mem_cons.mp hb with rfl | hb
        · exact xor_lt_256 ha1 h2i
        · rcases List.mem_cons.mp hb with rfl | hb
          · omega
          · rcases List.mem_cons.mp hb with rfl | hb
            · omega
            · simp at hb
      · rw [hE]
        intro h
        have := congrArg (fun l => l.getD 0 0) h
        simp only [List.getD_cons_zero] at this
        exact flip_ne_self a1 i this
    · rw [hE]
      simp only [List.getD_cons_succ, List.getD_cons_zero, List.set_cons_succ,
        List.set_cons_zero]
      refine parse_raw_error_of_ne k x data _ hk' hx' hdata ?_ rfl ?_
      · intro b hb
        rcases List.mem_cons.mp hb with rfl | hb
        · omega
        · rcases List.mem_cons.mp hb with rfl | hb
          · exact xor_lt_256 ha2 h2i
          · rcases List.mem_cons.mp hb with rfl | hb
            · omega
            · simp at hb
      · rw [hE]
        intro h
        have := congrArg (fun l => l.getD 1 0) h
        simp only [List.getD_cons_succ, List.getD_cons_zero] at this
        exact flip_ne_self a2 i this
    · rw [hE]
      simp only [List.getD_cons_succ, List.getD_cons_zero, List.set_cons_succ,
        List.set_cons_zero]
      refine parse_raw_error_of_ne k x data _ hk' hx' hdata ?_ rfl ?_
      · intro b hb
        rcases List.mem_cons.mp hb with rfl | hb
        · omega
        · rcases List.mem_cons.mp hb with rfl | hb
          · omega
          · rcases List.mem_cons.mp hb with rfl | hb
            · exact xor_lt_256 ha3 h2i
            · simp at hb
      · rw [hE]
        intro h
        have := congrArg (fun l => l.getD 2 0) h
        simp only [List.getD_cons_succ, List.getD_cons_zero] at this
        exact flip_ne_self a3 i this

theorem checksum_roundtrip_bitflip_witness :
    parse_share_line (format_share_line 2 1 [7] true) = .ok (2, 1, [7]) :=
  (checksum_roundtrip_bitflip 2 1 [7] (by omega) (by omega) (by omega)
    (by omega) (by decide)).2.1
